import Mathlib

/-!
Verification of the warning-generation module of climada_petals
(climada_petals/engine/warn.py) against its natural-language specification.

The development shallowly embeds the module in Lean:
- 2D numpy arrays of warn levels become the structure `Grid` (row-major list
  of integers together with its dimensions);
- float-valued fields and coordinates become rational numbers, so that the
  comparisons and divisions performed by the code are exact;
- the loops of the algorithms become folds over the explicit list of loop
  indices, and per-component in-place updates become simultaneous per-cell
  updates (the Python loops assign disjoint label classes a value that does
  not depend on the mutation order, as argued next to each definition);
- skimage's component labelling (8-connectivity, equal values connected,
  value 0 is background) is embedded as an iterated neighbourhood closure.
-/

set_option autoImplicit false

/-- A rectangular 2D integer map in row-major order, the embedding of the
numpy arrays handled by the Warn class. -/
structure Grid where
  rows : Nat
  cols : Nat
  data : List Int
deriving DecidableEq, Repr

namespace Grid

/-- A grid is well formed when its flat data list matches its dimensions,
which numpy guarantees for every actual array. -/
def Wf (g : Grid) : Prop := g.data.length = g.rows * g.cols

instance (g : Grid) : Decidable g.Wf := by
  unfold Wf; infer_instance

/-- Value of the grid at row r, column c; positions outside the rectangle
read as 0 (the code never reads outside the array). -/
def get (g : Grid) (p : Nat × Nat) : Int :=
  if p.1 < g.rows ∧ p.2 < g.cols then g.data.getD (p.1 * g.cols + p.2) 0 else 0

/-- Build a rows × cols grid from a function on positions. -/
def ofFn (r c : Nat) (f : Nat → Nat → Int) : Grid :=
  ⟨r, c, (List.range (r * c)).map (fun idx => f (idx / c) (idx % c))⟩

/-- The constant grid, embedding np.zeros_like(m) + v. -/
def const (r c : Nat) (v : Int) : Grid := ofFn r c (fun _ _ => v)

/-- Elementwise addition of a constant, embedding m + v on arrays. -/
def shift (g : Grid) (v : Int) : Grid := ofFn g.rows g.cols (fun r c => g.get (r, c) + v)

/-- Elementwise maximum, embedding np.maximum(a, b) for same-shaped arrays. -/
def pointwiseMax (a b : Grid) : Grid :=
  ofFn a.rows a.cols (fun r c => max (a.get (r, c)) (b.get (r, c)))

/-- Maximum entry, embedding np.max for a nonempty array (np.max raises on an
empty array; the default 0 of the embedding is never relied upon). -/
def gmax (g : Grid) : Int :=
  match g.data with
  | [] => 0
  | x :: xs => xs.foldl max x

/-- Minimum entry, embedding np.min for a nonempty array. -/
def gmin (g : Grid) : Int :=
  match g.data with
  | [] => 0
  | x :: xs => xs.foldl min x

/-- The list of positions of a grid in row-major order. -/
def allPos (g : Grid) : List (Nat × Nat) :=
  (List.range g.rows).flatMap (fun r => (List.range g.cols).map (fun c => (r, c)))

end Grid

/-- The descending list of integers hi, hi-1, ..., lo+1, embedding the Python
loop header range(hi, lo, -1). -/
def rangeDown (hi lo : Int) : List Int :=
  (List.range (hi - lo).toNat).map (fun (k : Nat) => hi - (k : Int))

section BinMap

/-- Number of boundary values less than or equal to v. For a monotonically
increasing boundary list this is exactly np.digitize(v, levels) with the
default right=False (the index i with levels[i-1] <= v < levels[i]). -/
def digitizeQ (v : ℚ) (levels : List ℚ) : Nat :=
  levels.countP (fun l => decide (l ≤ v))

/-- Level assigned to a single value by Warn.bin_map: np.digitize minus one
(the code comment: digitize lowest bin is 1). No clamping is performed. -/
def binVal (v : ℚ) (levels : List ℚ) : Int :=
  (digitizeQ v levels : Int) - 1

/-- Warn.bin_map on a flat field of values (the 2D shape is irrelevant to the
elementwise binning; the LOGGER.warning diagnostics are side effects with no
influence on the returned array and are not modelled). -/
def bin_map (field : List ℚ) (levels : List ℚ) : List Int :=
  field.map (fun v => binVal v levels)

end BinMap

section WarnMap

/-- Embedding of Warn._filtering: apply the configured operations in order.
The operations themselves (skimage dilation, erosion, median filtering) are
external library calls, embedded as abstract grid transformers. -/
def filteringOps (ops : List (Grid → Grid)) (binary_map : Grid) : Grid :=
  ops.foldl (fun m op => op m) binary_map

/-- The mask of one iteration of the loop of Warn._generate_warn_map:
np.where(pts_curr_lvl, curr_lvl, 0), where pts_curr_lvl is
np.bitwise_or(warn_map > curr_lvl, bin_map >= curr_lvl) when gradual_decr and
bin_map == curr_lvl otherwise. -/
def levelMask (gradual : Bool) (binned warn_map : Grid) (curr_lvl : Int) : Grid :=
  Grid.ofFn binned.rows binned.cols (fun r c =>
    if (if gradual then (warn_map.get (r, c) > curr_lvl ∨ binned.get (r, c) ≥ curr_lvl)
        else binned.get (r, c) = curr_lvl)
    then curr_lvl else 0)

/-- One iteration of the loop of Warn._generate_warn_map: filter the mask of
the current level and merge it into the running warn map by elementwise
maximum. -/
def warnStep (ops : List (Grid → Grid)) (gradual : Bool) (binned : Grid)
    (warn_map : Grid) (curr_lvl : Int) : Grid :=
  warn_map.pointwiseMax (filteringOps ops (levelMask gradual binned warn_map curr_lvl))

/-- Embedding of Warn._generate_warn_map: start from np.zeros_like + min and
fold the per-level step over range(max, min, -1). -/
def generate_warn_map (ops : List (Grid → Grid)) (gradual : Bool) (binned : Grid) : Grid :=
  (rangeDown binned.gmax binned.gmin).foldl (warnStep ops gradual binned)
    (Grid.const binned.rows binned.cols binned.gmin)

end WarnMap

section Labelling

/-- Whether two positions are distinct 8-neighbours (the default full
connectivity of skimage.measure.label on a 2D array). -/
def nbr8 (p q : Nat × Nat) : Bool :=
  decide (p ≠ q) && decide (max p.1 q.1 - min p.1 q.1 ≤ 1)
    && decide (max p.2 q.2 - min p.2 q.2 ≤ 1)

/-- One step of the connected-component closure: all positions of the grid
already in the set or 8-adjacent to a member of the set with the same value. -/
def compStep (g : Grid) (s : List (Nat × Nat)) : List (Nat × Nat) :=
  g.allPos.filter (fun q => s.contains q
    || s.any (fun p => nbr8 p q && decide (g.get p = g.get q)))

/-- The connected component of position p in g under 8-connectivity and value
equality: the closure is reached after at most rows*cols expansion steps. -/
def component (g : Grid) (p : Nat × Nat) : List (Nat × Nat) :=
  (fun s => compStep g s)^[g.rows * g.cols] [p]

/-- Size of the label class of position p under skimage.measure.label:
cells of value 0 are background and share the single label 0 (so their
np.count_nonzero(labels == 0) count is the total number of zero cells,
connected or not), other cells are counted by their connected component. -/
def labelCount (g : Grid) (p : Nat × Nat) : Nat :=
  if g.get p = 0 then g.allPos.countP (fun q => decide (g.get q = 0))
  else (component g p).length

/-- Embedding of Warn._increase_levels. The Python loop iterates over the
label classes of skimage.measure.label(warn) (computed once) and assigns
np.max(warn) to each class of count <= size; the classes are disjoint and
each assignment writes the running maximum, which such an assignment never
changes, so the loop is the simultaneous per-cell update below. -/
def increase_levels (warn : Grid) (size : Int) : Grid :=
  Grid.ofFn warn.rows warn.cols (fun r c =>
    if (labelCount warn (r, c) : Int) ≤ size then warn.gmax else warn.get (r, c))

/-- One iteration (for a fixed level i) of the loop of Warn._reset_levels as
the code actually executes it: the labels are those of the WHOLE current map
(labels = skimage.measure.label(warn); the isolated sub-map built in the
local variable level is never used), and every label class of count <= size
is assigned i - 1, whatever its value. The classes are disjoint and the
counts come from the labels computed at the start of the iteration, so the
loop over np.unique(labels) is this simultaneous per-cell update. -/
def resetStep (size : Int) (warn : Grid) (i : Int) : Grid :=
  Grid.ofFn warn.rows warn.cols (fun r c =>
    if (labelCount warn (r, c) : Int) ≤ size then i - 1 else warn.get (r, c))

/-- Embedding of Warn._reset_levels: fold the per-level step over
range(np.max(warn), np.min(warn), -1), whose bounds are evaluated once at
loop entry. -/
def reset_levels (warn : Grid) (size : Int) : Grid :=
  (rangeDown warn.gmax warn.gmin).foldl (resetStep size) warn

/-- The isolated sub-map of cells exactly equal to level i (the local
variable level of Warn._reset_levels: level = deepcopy(warn);
level[warn != i] = 0). -/
def isolate (warn : Grid) (i : Int) : Grid :=
  Grid.ofFn warn.rows warn.cols (fun r c => if warn.get (r, c) = i then warn.get (r, c) else 0)

/-- Modelled from the spec: one iteration of the downward pass as the
specification describes it, labelling the connected components of the
isolated sub-map of cells exactly equal to i (not of the whole map) and
demoting every such component of count <= size to i - 1. -/
def resetStepSpec (size : Int) (warn : Grid) (i : Int) : Grid :=
  Grid.ofFn warn.rows warn.cols (fun r c =>
    if warn.get (r, c) = i ∧ ((component (isolate warn i) (r, c)).length : Int) ≤ size
    then i - 1 else warn.get (r, c))

/-- Modelled from the spec: the downward pass with the sub-map labelling of
resetStepSpec in place of the whole-map labelling the code performs. -/
def reset_levels_spec (warn : Grid) (size : Int) : Grid :=
  (rangeDown warn.gmax warn.gmin).foldl (resetStepSpec size) warn

/-- Embedding of Warn._change_small_regions: shift by +1 (0 is regarded as
background in labelling), raise then lower small regions, shift back. -/
def change_small_regions (warning : Grid) (size : Int) : Grid :=
  ((increase_levels (warning.shift 1) size |> (reset_levels · size)).shift (-1))

/-- The small-region merge step as Warn.from_map applies it: the call is
guarded by the Python truthiness of warn_params.change_sm, so it runs for
every nonzero size (including 1 and negative values) and is skipped for 0. -/
def mergeSmallStep (warning : Grid) (change_sm : Int) : Grid :=
  if change_sm ≠ 0 then change_small_regions warning change_sm else warning

end Labelling

section ComponentSemantics

/-- Propositional form of 8-adjacency, mirroring nbr8. -/
def Adj (p q : Nat × Nat) : Prop :=
  p ≠ q ∧ max p.1 q.1 - min p.1 q.1 ≤ 1 ∧ max p.2 q.2 - min p.2 q.2 ≤ 1

/-- One reachability step of the same-value closure: the target is an
in-grid position adjacent to the source with the same value. -/
def compStepRel (g : Grid) (a b : Nat × Nat) : Prop :=
  b ∈ g.allPos ∧ Adj a b ∧ g.get a = g.get b

/-- Reachability through cells of equal value, the relation the component
closure computes. -/
def reach (g : Grid) (p q : Nat × Nat) : Prop :=
  Relation.ReflTransGen (compStepRel g) p q

/-- Adjacency steps between in-grid cells regardless of value, used to state
that the whole grid rectangle is connected. -/
def gridStepRel (g : Grid) (a b : Nat × Nat) : Prop :=
  b ∈ g.allPos ∧ Adj a b

/-- The downward-pass invariant of the idempotence proof (claim C5): every
cell of a label class of count at most s holds the value i, and all its
in-grid neighbours hold at most i. -/
def Kinv (w : Grid) (s i : Int) : Prop :=
  ∀ p ∈ w.allPos, (labelCount w p : Int) ≤ s →
    w.get p = i ∧ ∀ q ∈ w.allPos, Adj p q → w.get q ≤ i

/-- The common shape of _increase_levels and of one _reset_levels iteration:
every cell of a label class of count at most s is overwritten with c, every
other cell keeps its value. -/
def maskWrite (w : Grid) (s c : Int) : Grid :=
  Grid.ofFn w.rows w.cols (fun a b =>
    if (labelCount w (a, b) : Int) ≤ s then c else w.get (a, b))

end ComponentSemantics

section HeapModel

/-- The array heap: Python ndarray objects as heap cells addressed by index.
This models which lines of Warn._change_small_regions allocate a fresh array
and which mutate an existing one in place. -/
def emptyGrid : Grid := ⟨0, 0, []⟩

/-- Heap-level embedding of Warn._change_small_regions called on the array at
index i:
warning = warning + 1 allocates a fresh array (new index j);
_increase_levels and _reset_levels relabel their argument in place (the fancy
assignments warn[labels == l] = ... mutate the array at j) and return it;
warning = warning - 1 allocates the fresh result array.
The pair returned is the final heap and the index of the returned array. -/
def change_small_regions_heap (h : List Grid) (i : Nat) (size : Int) : List Grid × Nat :=
  let a := h.getD i emptyGrid
  let j := h.length
  let h1 := h ++ [a.shift 1]
  let h2 := h1.set j (increase_levels (h1.getD j emptyGrid) size)
  let h3 := h2.set j (reset_levels (h2.getD j emptyGrid) size)
  let h4 := h3 ++ [(h3.getD j emptyGrid).shift (-1)]
  (h4, h3.length)

end HeapModel

section Zeropadding

/-- Embedding of np.round(x, decimals=12). The inputs of interest are exact
fixed-point decimals, on which rounding is the identity, so the half-to-even
tie rule of numpy never fires in the statements below. -/
def round12 (x : ℚ) : ℚ := (round (x * 10 ^ 12) : ℚ) / 10 ^ 12

/-- Insert a value into a sorted rational list. -/
def insertSorted (x : ℚ) : List ℚ → List ℚ
  | [] => [x]
  | y :: ys => if x ≤ y then x :: y :: ys else y :: insertSorted x ys

/-- Ascending sort of a rational list, embedding np.sort. -/
def sortQ (xs : List ℚ) : List ℚ := xs.foldr insertSorted []

/-- Consecutive differences, embedding np.diff. -/
def diffsQ (xs : List ℚ) : List ℚ := List.zipWith (fun b a => b - a) xs.tail xs

/-- The sorted distinct values of a list, embedding np.unique. -/
def uniqueSorted (xs : List ℚ) : List ℚ := (sortQ xs).dedup

/-- Minimum of a list, embedding the min of a nonempty array. -/
def listMinQ (xs : List ℚ) : ℚ :=
  match xs with
  | [] => 0
  | x :: t => t.foldl min x

/-- Maximum of a list, embedding the max of a nonempty array (np.max raises
on an empty array; the default 0 is never relied upon in the theorems). -/
def listMaxQ (xs : List ℚ) : ℚ :=
  match xs with
  | [] => 0
  | x :: t => t.foldl max x

/-- Embedding of climada.util.coordinates.get_resolution with the default
min_resol = 1e-8: the smallest consecutive difference of the sorted values
exceeding min_resol, or 0 when there is none. -/
def minPosDiff (xs : List ℚ) : ℚ :=
  match (diffsQ (sortQ xs)).filter (fun d => decide (d > 1 / 100000000)) with
  | [] => 0
  | y :: ys => ys.foldl min y

/-- Embedding of np.mod for a positive modulus (the only case the checks
exercise: np.mod(a, r) = a - r * floor(a / r)). -/
def qmod (a r : ℚ) : ℚ := a - r * ⌊a / r⌋

/-- The grid-regularity test of Warn.zeropadding applied to a value list and
a resolution: np.mod(np.diff(np.sort(np.unique(vals)) - vals.min()), res).max()
< res * res_rel_error. -/
def regularityCheck (vals : List ℚ) (res tol : ℚ) : Bool :=
  let u := (uniqueSorted vals).map (fun x => x - listMinQ vals)
  let ms := (diffsQ u).map (fun d => qmod d res)
  decide (listMaxQ ms < res * tol)

/-- Embedding of np.arange(start, stop, step) for a positive step: the values
start + k * step for k < ceil((stop - start) / step). -/
def arangeQ (start stop step : ℚ) : List ℚ :=
  (List.range (⌈(stop - start) / step⌉.toNat)).map (fun (k : Nat) => start + (k : ℚ) * step)

/-- Embedding of ((x - mn) / r).astype(int) for the nonnegative quotients the
code produces: float-to-int conversion truncates toward zero, which equals
the floor on nonnegative values. -/
def truncIdx (x mn r : ℚ) : Nat := (⌊(x - mn) / r⌋).toNat

/-- A zero-filled R x C rational matrix, embedding np.zeros. -/
def zeroMat (R C : Nat) : List (List ℚ) := List.replicate R (List.replicate C 0)

/-- Point update of a rational matrix. -/
def matSet (m : List (List ℚ)) (i j : Nat) (v : ℚ) : List (List ℚ) :=
  m.set i ((m.getD i []).set j v)

/-- Embedding of the vectorized scatter map_rec[i, j] = val: numpy assigns
elementwise in order, so on colliding indices the last write wins. -/
def scatterVals (m : List (List ℚ)) (l : List (Nat × Nat × ℚ)) : List (List ℚ) :=
  l.foldl (fun acc t => matSet acc t.1 t.2.1 t.2.2) m

/-- Embedding of Warn.zeropadding. The two validation booleans mirror the
source exactly: both check_lat and check_lon are computed from the longitude
values and the longitude resolution (see claim C8); a failed check raises
ValueError, embedded as none. -/
def zeropadding (lat lon val : List ℚ) (res_rel_error : ℚ) :
    Option (List (List ℚ) × List (ℚ × ℚ)) :=
  let lat1 := lat.map round12
  let lon1 := lon.map round12
  let grid_res_lon := minPosDiff lon1
  let grid_res_lat := minPosDiff lat1
  let check_lat := regularityCheck lon1 grid_res_lon res_rel_error
  let check_lon := regularityCheck lon1 grid_res_lon res_rel_error
  if ¬ check_lon ∨ ¬ check_lat then none
  else
    let un_y := arangeQ (listMinQ lat1) (listMaxQ lat1 + |grid_res_lat|) |grid_res_lat|
    let un_x := arangeQ (listMinQ lon1) (listMaxQ lon1 + |grid_res_lon|) |grid_res_lon|
    let idx_i := lat1.map (fun x => truncIdx x (listMinQ lat1) |grid_res_lat|)
    let idx_j := lon1.map (fun x => truncIdx x (listMinQ lon1) |grid_res_lon|)
    let map_rec := scatterVals (zeroMat un_y.length un_x.length) (idx_i.zip (idx_j.zip val))
    let coord_rec := (List.range (un_y.length * un_x.length)).map
      (fun t => (un_y.getD (t / un_x.length) 0, un_x.getD (t % un_x.length) 0))
    some (map_rec, coord_rec)

/-- The row-major product of two axis lists: the list of (y, x) pairs the
flattened meshgrid of Warn.zeropadding enumerates. -/
def prodPairs (A B : List ℚ) : List (ℚ × ℚ) :=
  A.flatMap (fun y => B.map (fun x => (y, x)))

/-- Entry (i, j) of a rational matrix, with default 0. -/
def getMat (m : List (List ℚ)) (i j : Nat) : ℚ := (m.getD i []).getD j 0

/-- The latitude-axis regularity test as the specification describes it
(computed from the latitudes and the latitude resolution), for comparison
with the check the code actually performs. -/
def latRegularityCheck (lat : List ℚ) (tol : ℚ) : Bool :=
  let lat1 := lat.map round12
  regularityCheck lat1 (minPosDiff lat1) tol

end Zeropadding

/-! Helper lemmas about the grid embedding. -/

namespace Grid

@[simp] theorem rows_ofFn (r c : Nat) (f : Nat → Nat → Int) : (ofFn r c f).rows = r := rfl

@[simp] theorem cols_ofFn (r c : Nat) (f : Nat → Nat → Int) : (ofFn r c f).cols = c := rfl

theorem length_data_ofFn (r c : Nat) (f : Nat → Nat → Int) :
    (ofFn r c f).data.length = r * c := by
  simp [ofFn]

theorem wf_ofFn (r c : Nat) (f : Nat → Nat → Int) : (ofFn r c f).Wf :=
  length_data_ofFn r c f

theorem idx_lt (r c i j : Nat) (hi : i < r) (hj : j < c) : i * c + j < r * c := by
  calc i * c + j < i * c + c := by omega
    _ = (i + 1) * c := by ring
    _ ≤ r * c := Nat.mul_le_mul_right c (by omega)

theorem idx_div (c i j : Nat) (hj : j < c) : (i * c + j) / c = i := by
  have hc : 0 < c := Nat.pos_of_ne_zero (by omega)
  rw [Nat.mul_comm i c, Nat.mul_add_div hc, Nat.div_eq_of_lt hj, Nat.add_zero]

theorem idx_mod (c i j : Nat) (hj : j < c) : (i * c + j) % c = j := by
  rw [Nat.mul_comm i c, Nat.mul_add_mod, Nat.mod_eq_of_lt hj]

theorem get_ofFn (r c : Nat) (f : Nat → Nat → Int) (i j : Nat) (hi : i < r) (hj : j < c) :
    (ofFn r c f).get (i, j) = f i j := by
  have hidx : i * c + j < r * c := idx_lt r c i j hi hj
  unfold get ofFn
  rw [if_pos ⟨hi, hj⟩]
  simp only []
  rw [List.getD_eq_getElem _ _ (by simpa using hidx)]
  rw [List.getElem_map, List.getElem_range, idx_div c i j hj, idx_mod c i j hj]

theorem get_out (g : Grid) (p : Nat × Nat) (h : ¬(p.1 < g.rows ∧ p.2 < g.cols)) :
    g.get p = 0 := by
  unfold get
  exact if_neg h

theorem ofFn_self (g : Grid) (hwf : g.Wf) :
    ofFn g.rows g.cols (fun i j => g.get (i, j)) = g := by
  obtain ⟨r, c, d⟩ := g
  simp only [Wf] at hwf
  simp only [ofFn, mk.injEq, true_and]
  apply List.ext_getElem
  · simpa using hwf.symm
  intro k h1 h2
  have hk : k < r * c := by simpa using h1
  rcases Nat.eq_zero_or_pos c with hc | hc
  · rw [hc, Nat.mul_zero] at hk
    omega
  have hdiv : k / c < r := (Nat.div_lt_iff_lt_mul hc).mpr hk
  have hmod : k % c < c := Nat.mod_lt _ hc
  rw [List.getElem_map, List.getElem_range]
  show Grid.get ⟨r, c, d⟩ (k / c, k % c) = d[k]
  unfold get
  rw [if_pos ⟨hdiv, hmod⟩]
  simp only []
  have hdm : k / c * c + k % c = k := Nat.div_add_mod' k c
  rw [hdm]
  exact List.getD_eq_getElem d 0 (by omega)

theorem ofFn_congr (r c : Nat) (f f₂ : Nat → Nat → Int)
    (h : ∀ i j, i < r → j < c → f i j = f₂ i j) : ofFn r c f = ofFn r c f₂ := by
  simp only [ofFn, mk.injEq, true_and]
  apply List.map_congr_left
  intro idx hidx
  rw [List.mem_range] at hidx
  rcases Nat.eq_zero_or_pos c with hc | hc
  · rw [hc, Nat.mul_zero] at hidx
    omega
  exact h _ _ ((Nat.div_lt_iff_lt_mul hc).mpr hidx) (Nat.mod_lt _ hc)

theorem get_mem_data (g : Grid) (hwf : g.Wf) (i j : Nat) (hi : i < g.rows) (hj : j < g.cols) :
    g.get (i, j) ∈ g.data := by
  unfold get
  rw [if_pos ⟨hi, hj⟩]
  have hidx : i * g.cols + j < g.data.length := by
    rw [hwf]; exact idx_lt _ _ _ _ hi hj
  rw [List.getD_eq_getElem _ _ hidx]
  exact List.getElem_mem hidx

theorem foldl_min_le {α : Type*} [LinearOrder α] (l : List α) (a : α) : l.foldl min a ≤ a := by
  induction l generalizing a with
  | nil => exact le_refl a
  | cons x xs ih => exact le_trans (ih (min a x)) (min_le_left a x)

theorem foldl_min_le_mem {α : Type*} [LinearOrder α] (l : List α) (a : α) (x : α) (hx : x ∈ l) :
    l.foldl min a ≤ x := by
  induction l generalizing a with
  | nil => cases hx
  | cons y ys ih =>
    rcases List.mem_cons.mp hx with rfl | h
    · exact le_trans (foldl_min_le ys (min a x)) (min_le_right a x)
    · exact ih (min a y) h

theorem le_foldl_max {α : Type*} [LinearOrder α] (l : List α) (a : α) : a ≤ l.foldl max a := by
  induction l generalizing a with
  | nil => exact le_refl a
  | cons x xs ih => exact le_trans (le_max_left a x) (ih (max a x))

theorem mem_le_foldl_max {α : Type*} [LinearOrder α] (l : List α) (a : α) (x : α) (hx : x ∈ l) :
    x ≤ l.foldl max a := by
  induction l generalizing a with
  | nil => cases hx
  | cons y ys ih =>
    rcases List.mem_cons.mp hx with rfl | h
    · exact le_trans (le_max_right a x) (le_foldl_max ys (max a x))
    · exact ih (max a y) h

theorem gmin_le_mem (g : Grid) (x : Int) (hx : x ∈ g.data) : g.gmin ≤ x := by
  unfold gmin
  cases h : g.data with
  | nil => rw [h] at hx; cases hx
  | cons y ys =>
    rw [h] at hx
    rcases List.mem_cons.mp hx with rfl | hmem
    · exact foldl_min_le ys x
    · exact foldl_min_le_mem ys y x hmem

theorem mem_le_gmax (g : Grid) (x : Int) (hx : x ∈ g.data) : x ≤ g.gmax := by
  unfold gmax
  cases h : g.data with
  | nil => rw [h] at hx; cases hx
  | cons y ys =>
    rw [h] at hx
    rcases List.mem_cons.mp hx with rfl | hmem
    · exact le_foldl_max ys x
    · exact mem_le_foldl_max ys y x hmem

theorem foldl_min_mem {α : Type*} [LinearOrder α] (l : List α) (a : α) :
    l.foldl min a = a ∨ l.foldl min a ∈ l := by
  induction l generalizing a with
  | nil => exact Or.inl rfl
  | cons z zs ih =>
    rcases ih (min a z) with heq | hmem
    · rw [List.foldl_cons, heq]
      rcases min_choice a z with hc | hc
      · exact Or.inl hc
      · right
        rw [hc]
        exact List.mem_cons_self z zs
    · exact Or.inr (List.mem_cons_of_mem z hmem)

theorem gmin_mem (g : Grid) (hne : g.data ≠ []) : g.gmin ∈ g.data := by
  rcases h : g.data with _ | ⟨y, ys⟩
  · exact absurd h hne
  · have hg : g.gmin = ys.foldl min y := by
      unfold gmin
      rw [h]
    rw [hg]
    rcases foldl_min_mem ys y with heq | hmem
    · rw [heq]
      exact List.mem_cons_self y ys
    · exact List.mem_cons_of_mem y hmem

end Grid

theorem mem_rangeDown (hi lo x : Int) : x ∈ rangeDown hi lo ↔ lo < x ∧ x ≤ hi := by
  unfold rangeDown
  constructor
  · intro hx
    obtain ⟨k, hk, rfl⟩ := List.mem_map.mp hx
    rw [List.mem_range, Int.lt_toNat] at hk
    omega
  · rintro ⟨h1, h2⟩
    apply List.mem_map.mpr
    refine ⟨(hi - x).toNat, ?_, ?_⟩
    · rw [List.mem_range, Int.lt_toNat, Int.toNat_of_nonneg (by omega)]
      omega
    · rw [Int.toNat_of_nonneg (by omega)]
      omega

/-! Lemmas about the region-forming loop of Warn._generate_warn_map. -/

theorem get_pointwiseMax_left_le (a b : Grid) (p : Nat × Nat) :
    a.get p ≤ (a.pointwiseMax b).get p := by
  obtain ⟨i, j⟩ := p
  by_cases h : i < a.rows ∧ j < a.cols
  · rw [Grid.pointwiseMax, Grid.get_ofFn _ _ _ _ _ h.1 h.2]
    exact le_max_left _ _
  · rw [Grid.get_out a _ h, Grid.get_out _ _ (by simpa [Grid.pointwiseMax] using h)]

theorem rows_warnStep (ops : List (Grid → Grid)) (gradual : Bool) (binned w : Grid)
    (lvl : Int) : (warnStep ops gradual binned w lvl).rows = w.rows := rfl

theorem cols_warnStep (ops : List (Grid → Grid)) (gradual : Bool) (binned w : Grid)
    (lvl : Int) : (warnStep ops gradual binned w lvl).cols = w.cols := rfl

theorem le_foldl_warnStep (ops : List (Grid → Grid)) (gradual : Bool) (binned : Grid)
    (L : List Int) (w : Grid) (p : Nat × Nat) :
    w.get p ≤ (L.foldl (warnStep ops gradual binned) w).get p := by
  induction L generalizing w with
  | nil => exact le_refl _
  | cons l ls ih =>
    rw [List.foldl_cons]
    exact le_trans (get_pointwiseMax_left_le w _ p) (ih (warnStep ops gradual binned w l))

theorem get_warnStep_empty_ops (g w : Grid) (l : Int) (i j : Nat)
    (hr : w.rows = g.rows) (hc : w.cols = g.cols) (hi : i < g.rows) (hj : j < g.cols) :
    (warnStep [] false g w l).get (i, j)
      = max (w.get (i, j)) (if g.get (i, j) = l then l else 0) := by
  show (w.pointwiseMax (levelMask false g w l)).get (i, j) = _
  rw [Grid.pointwiseMax, Grid.get_ofFn _ _ _ _ _ (by omega) (by omega)]
  congr 1
  rw [levelMask, Grid.get_ofFn _ _ _ _ _ hi hj]
  simp only [Bool.false_eq_true, if_false]

theorem get_foldl_empty_ops (g : Grid) (L : List Int) (w : Grid) (i j : Nat)
    (hr : w.rows = g.rows) (hc : w.cols = g.cols) (hi : i < g.rows) (hj : j < g.cols) :
    (L.foldl (warnStep [] false g) w).get (i, j)
      = L.foldl (fun v lvl => max v (if g.get (i, j) = lvl then lvl else 0)) (w.get (i, j)) := by
  induction L generalizing w with
  | nil => rfl
  | cons l ls ih =>
    rw [List.foldl_cons, List.foldl_cons, ih (warnStep [] false g w l) hr hc,
      get_warnStep_empty_ops g w l i j hr hc hi hj]

theorem scalar_fold_ge_init (L : List Int) (a : Int) (c : Int → Int) :
    a ≤ L.foldl (fun v lvl => max v (c lvl)) a := by
  induction L generalizing a with
  | nil => exact le_refl a
  | cons l ls ih => exact le_trans (le_max_left a (c l)) (ih (max a (c l)))

theorem scalar_fold_ge_mem (L : List Int) (a : Int) (c : Int → Int) (l : Int) (hl : l ∈ L) :
    c l ≤ L.foldl (fun v lvl => max v (c lvl)) a := by
  induction L generalizing a with
  | nil => cases hl
  | cons x xs ih =>
    rcases List.mem_cons.mp hl with rfl | h
    · exact le_trans (le_max_right a (c l)) (scalar_fold_ge_init xs (max a (c l)) c)
    · exact ih (max a (c x)) h

theorem scalar_fold_le (L : List Int) (a x : Int) (c : Int → Int) (ha : a ≤ x)
    (hc : ∀ l ∈ L, c l ≤ x) : L.foldl (fun v lvl => max v (c lvl)) a ≤ x := by
  induction L generalizing a with
  | nil => exact ha
  | cons l ls ih =>
    rw [List.foldl_cons]
    exact ih (max a (c l)) (max_le ha (hc l (List.mem_cons_self l ls)))
      (fun y hy => hc y (List.mem_cons_of_mem l hy))

theorem rows_foldl_warnStep (ops : List (Grid → Grid)) (gradual : Bool) (binned : Grid)
    (L : List Int) (w : Grid) : (L.foldl (warnStep ops gradual binned) w).rows = w.rows := by
  induction L generalizing w with
  | nil => rfl
  | cons l ls ih => rw [List.foldl_cons, ih]; rfl

theorem cols_foldl_warnStep (ops : List (Grid → Grid)) (gradual : Bool) (binned : Grid)
    (L : List Int) (w : Grid) : (L.foldl (warnStep ops gradual binned) w).cols = w.cols := by
  induction L generalizing w with
  | nil => rfl
  | cons l ls ih => rw [List.foldl_cons, ih]; rfl

theorem wf_foldl_warnStep (ops : List (Grid → Grid)) (gradual : Bool) (binned : Grid)
    (L : List Int) (w : Grid) (hw : w.Wf) : (L.foldl (warnStep ops gradual binned) w).Wf := by
  induction L generalizing w with
  | nil => exact hw
  | cons l ls ih => exact ih _ (Grid.wf_ofFn _ _ _)

theorem foldl_max_all_eq {α : Type*} [LinearOrder α] (l : List α) (a : α) (h : ∀ y ∈ l, y = a) :
    l.foldl max a = a := by
  induction l with
  | nil => rfl
  | cons x xs ih =>
    rw [List.foldl_cons, h x (List.mem_cons_self x xs), max_self]
    exact ih (fun y hy => h y (List.mem_cons_of_mem x hy))

theorem foldl_min_all_eq {α : Type*} [LinearOrder α] (l : List α) (a : α) (h : ∀ y ∈ l, y = a) :
    l.foldl min a = a := by
  induction l with
  | nil => rfl
  | cons x xs ih =>
    rw [List.foldl_cons, h x (List.mem_cons_self x xs), min_self]
    exact ih (fun y hy => h y (List.mem_cons_of_mem x hy))

theorem gmax_of_replicate (g : Grid) (L : Int) (n : Nat) (hn : 0 < n)
    (hflat : g.data = List.replicate n L) : g.gmax = L := by
  unfold Grid.gmax
  rw [hflat]
  cases n with
  | zero => omega
  | succ m =>
    rw [List.replicate_succ]
    exact foldl_max_all_eq _ _ (fun y hy => List.eq_of_mem_replicate hy)

theorem gmin_of_replicate (g : Grid) (L : Int) (n : Nat) (hn : 0 < n)
    (hflat : g.data = List.replicate n L) : g.gmin = L := by
  unfold Grid.gmin
  rw [hflat]
  cases n with
  | zero => omega
  | succ m =>
    rw [List.replicate_succ]
    exact foldl_min_all_eq _ _ (fun y hy => List.eq_of_mem_replicate hy)

theorem rangeDown_self_nil (t : Int) : rangeDown t t = [] := by
  unfold rangeDown
  rw [sub_self]
  rfl

theorem const_data_replicate (r c : Nat) (v : Int) :
    (Grid.const r c v).data = List.replicate (r * c) v := by
  unfold Grid.const Grid.ofFn
  simp only []
  rw [List.map_const', List.length_range]

/-! Lemmas for the no-op behaviour of the merge step at nonpositive sizes. -/

theorem increase_levels_nonpos (w : Grid) (hwf : w.Wf) (s : Int) (hs : s < 0) :
    increase_levels w s = w := by
  unfold increase_levels
  have h : ∀ i j, i < w.rows → j < w.cols →
      (if ((labelCount w (i, j) : Int) ≤ s) then w.gmax else w.get (i, j)) = w.get (i, j) := by
    intro i j _ _
    have hc : (0 : Int) ≤ (labelCount w (i, j) : Int) := Int.ofNat_nonneg _
    rw [if_neg (by omega)]
  rw [Grid.ofFn_congr _ _ _ _ h, Grid.ofFn_self w hwf]

theorem resetStep_nonpos (s : Int) (hs : s < 0) (w : Grid) (hwf : w.Wf) (i : Int) :
    resetStep s w i = w := by
  unfold resetStep
  have h : ∀ a b, a < w.rows → b < w.cols →
      (if ((labelCount w (a, b) : Int) ≤ s) then i - 1 else w.get (a, b)) = w.get (a, b) := by
    intro a b _ _
    have hc : (0 : Int) ≤ (labelCount w (a, b) : Int) := Int.ofNat_nonneg _
    rw [if_neg (by omega)]
  rw [Grid.ofFn_congr _ _ _ _ h, Grid.ofFn_self w hwf]

theorem reset_levels_nonpos (w : Grid) (hwf : w.Wf) (s : Int) (hs : s < 0) :
    reset_levels w s = w := by
  unfold reset_levels
  generalize rangeDown w.gmax w.gmin = L
  induction L with
  | nil => rfl
  | cons a as ih => rw [List.foldl_cons, resetStep_nonpos s hs w hwf a]; exact ih

theorem shift_shift_cancel (g : Grid) (hwf : g.Wf) : (g.shift 1).shift (-1) = g := by
  unfold Grid.shift
  have h : ∀ i j, i < g.rows → j < g.cols →
      (Grid.ofFn g.rows g.cols (fun r c => g.get (r, c) + 1)).get (i, j) + (-1) = g.get (i, j) := by
    intro i j hi hj
    rw [Grid.get_ofFn _ _ _ _ _ hi hj]
    ring
  calc Grid.ofFn (Grid.ofFn g.rows g.cols fun r c => g.get (r, c) + 1).rows
        (Grid.ofFn g.rows g.cols fun r c => g.get (r, c) + 1).cols
        (fun r c => (Grid.ofFn g.rows g.cols fun r c => g.get (r, c) + 1).get (r, c) + (-1))
      = Grid.ofFn g.rows g.cols (fun i j => g.get (i, j)) := Grid.ofFn_congr _ _ _ _ h
    _ = g := Grid.ofFn_self g hwf

theorem change_small_regions_nonpos (g : Grid) (hwf : g.Wf) (s : Int) (hs : s < 0) :
    change_small_regions g s = g := by
  unfold change_small_regions
  simp only []
  rw [increase_levels_nonpos (g.shift 1) (Grid.wf_ofFn _ _ _) s hs,
    reset_levels_nonpos (g.shift 1) (Grid.wf_ofFn _ _ _) s hs,
    shift_shift_cancel g hwf]

theorem Grid.eq_of_fields (a b : Grid) (h1 : a.rows = b.rows) (h2 : a.cols = b.cols)
    (h3 : a.data = b.data) : a = b := by
  cases a
  cases b
  cases h1
  cases h2
  cases h3
  rfl

/-! The claim theorems. -/

/-- Claim C1, counterexample: with boundaries [0, 10, 40, 80] (K = 3), the
claim says value 200 clamps to level K - 1 = 2 and value -5 clamps to level
0; the code performs no clamping and yields levels 3 and -1 instead. -/
theorem binned_level_not_clamped :
    binVal 200 [0, 10, 40, 80] ≠ 2 ∧ binVal (-5) [0, 10, 40, 80] ≠ 0 := by
  constructor <;> decide

/-- Claim C1, amended: bin_map assigns to each value v the level (number of
boundary values <= v) minus 1 with no clamping: with boundaries
[0, 10, 40, 80], value 9.999 bins to level 0, value 10.0 bins to level 1,
value 200 bins to the new higher level 3, and value -5 bins to level -1
(the out-of-range cases produce logged diagnostics, not errors). -/
theorem bin_map_counts_boundaries_no_clamp :
    (∀ (field B : List ℚ), bin_map field B
      = field.map (fun v => ((B.filter (fun l => decide (l ≤ v))).length : Int) - 1)) ∧
    binVal (9999/1000) [0, 10, 40, 80] = 0 ∧
    binVal 10 [0, 10, 40, 80] = 1 ∧
    binVal 200 [0, 10, 40, 80] = 3 ∧
    binVal (-5) [0, 10, 40, 80] = -1 := by
  refine ⟨?_, ?_, ?_, ?_, ?_⟩
  · intro field B
    unfold bin_map binVal digitizeQ
    apply List.map_congr_left
    intro v _
    rw [List.countP_eq_length_filter]
  · norm_num [binVal, digitizeQ, List.countP, List.countP.go]
  · norm_num [binVal, digitizeQ, List.countP, List.countP.go]
  · norm_num [binVal, digitizeQ, List.countP, List.countP.go]
  · norm_num [binVal, digitizeQ, List.countP, List.countP.go]

/-- Claim C2: the code of the downward pass labels the connected components
of the WHOLE current map, not of the isolated sub-map of cells equal to i
(the isolated sub-map is computed into the dead local variable level).
On the map [[1, 2], [2, 3]] with min_size 1 the executed pass yields
[[2, 2], [2, 2]] (the level-1 cell is raised by the i = 3 iteration because
any small component is assigned i - 1), while the pass described by the
specification yields [[1, 2], [2, 2]]. -/
theorem reset_levels_labels_whole_map_divergence :
    reset_levels ⟨2, 2, [1, 2, 2, 3]⟩ 1 = ⟨2, 2, [2, 2, 2, 2]⟩ ∧
    reset_levels_spec ⟨2, 2, [1, 2, 2, 3]⟩ 1 = ⟨2, 2, [1, 2, 2, 2]⟩ ∧
    reset_levels ⟨2, 2, [1, 2, 2, 3]⟩ 1 ≠ reset_levels_spec ⟨2, 2, [1, 2, 2, 3]⟩ 1 := by
  refine ⟨?_, ?_, ?_⟩ <;> decide

/-- Claim C3, counterexample: the region-forming loop is not the identity on
every binned grid: on [[-1, 1]] (a level of -1 arises from input values below
the lowest boundary) the loop returns [[0, 1]], because the mask merged at
each level is np.where(.., lvl, 0) and the running maximum never drops below
0 once a 0 mask is merged. -/
theorem form_regions_empty_ops_not_id_on_neg :
    generate_warn_map [] false ⟨1, 2, [-1, 1]⟩ ≠ ⟨1, 2, [-1, 1]⟩ := by
  decide

/-- Claim C3, amended: for every nonempty well-formed binned grid all of
whose levels are nonnegative, form_regions with an empty operation list and
gradual_decrease = False returns the input binned grid exactly. -/
theorem form_regions_empty_ops_id_nonneg (g : Grid) (hwf : g.Wf) (hne : g.data ≠ [])
    (h0 : ∀ x ∈ g.data, 0 ≤ x) : generate_warn_map [] false g = g := by
  have hmin0 : 0 ≤ g.gmin := h0 _ (Grid.gmin_mem g hne)
  unfold generate_warn_map
  have hwfres : ((rangeDown g.gmax g.gmin).foldl (warnStep [] false g)
      (Grid.const g.rows g.cols g.gmin)).Wf :=
    wf_foldl_warnStep _ _ _ _ _ (Grid.wf_ofFn _ _ _)
  have hcell : ∀ i j, i < g.rows → j < g.cols →
      ((rangeDown g.gmax g.gmin).foldl (warnStep [] false g)
        (Grid.const g.rows g.cols g.gmin)).get (i, j) = g.get (i, j) := by
    intro i j hi hj
    rw [get_foldl_empty_ops g (rangeDown g.gmax g.gmin) (Grid.const g.rows g.cols g.gmin)
      i j rfl rfl hi hj]
    have hinitget : (Grid.const g.rows g.cols g.gmin).get (i, j) = g.gmin :=
      Grid.get_ofFn _ _ _ _ _ hi hj
    rw [hinitget]
    have hmem : g.get (i, j) ∈ g.data := Grid.get_mem_data g hwf i j hi hj
    have hlo : g.gmin ≤ g.get (i, j) := Grid.gmin_le_mem g _ hmem
    have hhi : g.get (i, j) ≤ g.gmax := Grid.mem_le_gmax g _ hmem
    have hx0 : 0 ≤ g.get (i, j) := le_trans hmin0 hlo
    apply le_antisymm
    · apply scalar_fold_le _ _ _ _ hlo
      intro l _
      by_cases hc : g.get (i, j) = l
      · rw [if_pos hc]
        omega
      · rw [if_neg hc]
        exact hx0
    · rcases eq_or_lt_of_le hlo with heq | hlt
      · rw [← heq]
        exact scalar_fold_ge_init _ _ _
      · have hmem2 : g.get (i, j) ∈ rangeDown g.gmax g.gmin :=
          (mem_rangeDown _ _ _).mpr ⟨hlt, hhi⟩
        have hge := scalar_fold_ge_mem (rangeDown g.gmax g.gmin) g.gmin
          (fun lvl => if g.get (i, j) = lvl then lvl else 0) (g.get (i, j)) hmem2
        simpa using hge
  calc (rangeDown g.gmax g.gmin).foldl (warnStep [] false g) (Grid.const g.rows g.cols g.gmin)
      = Grid.ofFn _ _ (fun i j => ((rangeDown g.gmax g.gmin).foldl (warnStep [] false g)
          (Grid.const g.rows g.cols g.gmin)).get (i, j)) := (Grid.ofFn_self _ hwfres).symm
    _ = Grid.ofFn g.rows g.cols (fun i j => ((rangeDown g.gmax g.gmin).foldl (warnStep [] false g)
          (Grid.const g.rows g.cols g.gmin)).get (i, j)) := by
        rw [rows_foldl_warnStep, cols_foldl_warnStep]
        rfl
    _ = Grid.ofFn g.rows g.cols (fun i j => g.get (i, j)) := Grid.ofFn_congr _ _ _ _ hcell
    _ = g := Grid.ofFn_self g hwf

/-- Claim C3, witness for the amended theorem at the grid [[0, 1]]. -/
theorem form_regions_empty_ops_id_nonneg_witness :
    generate_warn_map [] false ⟨1, 2, [0, 1]⟩ = ⟨1, 2, [0, 1]⟩ :=
  form_regions_empty_ops_id_nonneg ⟨1, 2, [0, 1]⟩ (by decide) (by decide) (by decide)

/-- Claim C4: in the RegionFormer loop the running warn map is merged with
np.maximum at every iteration, so it is elementwise non-decreasing across
iterations: after the full loop, every cell is at least the value it held
after any earlier iteration (in particular a value merged during the
processing of a higher level curr_lvl1 is never overwritten by the
contribution of a later, lower level curr_lvl2). This holds for every
operation pipeline and both settings of gradual_decr. -/
theorem warn_map_monotone_across_iterations (ops : List (Grid → Grid)) (gradual : Bool)
    (binned : Grid) (k : Nat) (p : Nat × Nat) :
    (((rangeDown binned.gmax binned.gmin).take k).foldl (warnStep ops gradual binned)
        (Grid.const binned.rows binned.cols binned.gmin)).get p
      ≤ (generate_warn_map ops gradual binned).get p := by
  unfold generate_warn_map
  conv_rhs => rw [← List.take_append_drop k (rangeDown binned.gmax binned.gmin)]
  rw [List.foldl_append]
  exact le_foldl_warnStep ops gradual binned _ _ p

/-- Claim C6: on a binned grid uniformly equal to a level L the loop bounds
coincide (max = min = L), range(max, min, -1) is empty, no filtering
operation is ever applied, and the returned map is the uniform input map
itself: this holds for every operation pipeline and both settings of
gradual_decr. -/
theorem form_regions_flat_field_uniform (ops : List (Grid → Grid)) (gradual : Bool)
    (g : Grid) (L : Int)
    (hflat : g.data = List.replicate (g.rows * g.cols) L) :
    generate_warn_map ops gradual g = g := by
  unfold generate_warn_map
  rcases Nat.eq_zero_or_pos (g.rows * g.cols) with hz | hpos
  · have hdata : g.data = [] := by rw [hflat, hz]; rfl
    have hq : g.gmax = g.gmin := by
      unfold Grid.gmax Grid.gmin
      rw [hdata]
    rw [hq, rangeDown_self_nil, List.foldl_nil]
    apply Grid.eq_of_fields
    · rfl
    · rfl
    · rw [const_data_replicate, hz, hdata]
      rfl
  · have hM : g.gmax = L := gmax_of_replicate g L _ hpos hflat
    have hm : g.gmin = L := gmin_of_replicate g L _ hpos hflat
    rw [hM, hm, rangeDown_self_nil, List.foldl_nil]
    apply Grid.eq_of_fields
    · rfl
    · rfl
    · rw [const_data_replicate, hflat]

/-- Claim C6, witness: a 2 x 2 flat field at level 5, with a nontrivial
operation in the pipeline and gradual_decr set, is returned unchanged. -/
theorem form_regions_flat_field_uniform_witness :
    generate_warn_map [fun m => Grid.const m.rows m.cols 7] true ⟨2, 2, [5, 5, 5, 5]⟩
      = ⟨2, 2, [5, 5, 5, 5]⟩ :=
  form_regions_flat_field_uniform [fun m => Grid.const m.rows m.cols 7] true
    ⟨2, 2, [5, 5, 5, 5]⟩ 5 (by decide)

/-- Claim C7, counterexample: with min_size = 1 the merge step is NOT a
no-op: Warn.from_map guards the call only by Python truthiness of change_sm,
so min_size = 1 runs the merge and the singleton region of [[0, 1]] is
merged, producing [[1, 1]]. -/
theorem merge_small_min_size_one_not_noop :
    mergeSmallStep ⟨1, 2, [0, 1]⟩ 1 ≠ ⟨1, 2, [0, 1]⟩ := by
  decide

/-- Claim C7, amended: the merge step is a no-op exactly for nonpositive
min_size: for min_size = 0 (or False or None) the call is skipped, and for
negative min_size no label class has count <= min_size, so nothing changes;
for min_size = 1 the step does run and merges singleton regions. -/
theorem merge_small_noop_nonpos (g : Grid) (hwf : g.Wf) (s : Int) (hs : s ≤ 0) :
    mergeSmallStep g s = g := by
  rcases eq_or_lt_of_le hs with heq | hlt
  · unfold mergeSmallStep
    rw [if_neg (by omega)]
  · unfold mergeSmallStep
    rw [if_pos (by omega)]
    exact change_small_regions_nonpos g hwf s hlt

/-- Claim C7, witness for the amended theorem at min_size = -1. -/
theorem merge_small_noop_nonpos_witness :
    mergeSmallStep ⟨1, 2, [0, 1]⟩ (-1) = ⟨1, 2, [0, 1]⟩ :=
  merge_small_noop_nonpos ⟨1, 2, [0, 1]⟩ (by decide) (-1) (by decide)

theorem getD_set_ne {α : Type*} (l : List α) (j : Nat) (a : α) (i : Nat) (d : α) (hne : j ≠ i) :
    (l.set j a).getD i d = l.getD i d := by
  rw [List.getD_eq_getD_get?, List.getD_eq_getD_get?, List.get?_eq_getElem?,
    List.get?_eq_getElem?, List.getElem?_set_ne hne]

/-- Claim C10: the small-region merge step does not mutate the array passed
to it: warning + 1 allocates a fresh array at a fresh heap index, all
in-place relabelling of _increase_levels and _reset_levels happens at that
fresh index, and the returned array is another fresh allocation (index
old heap length + 1), so the caller's array at index i is unchanged. -/
theorem change_small_regions_preserves_input_array (h : List Grid) (i : Nat) (size : Int)
    (hi : i < h.length) :
    (change_small_regions_heap h i size).1.getD i emptyGrid = h.getD i emptyGrid ∧
    (change_small_regions_heap h i size).2 = h.length + 1 := by
  unfold change_small_regions_heap
  simp only []
  have hlen1 : (h ++ [(h.getD i emptyGrid).shift 1]).length = h.length + 1 := by simp
  constructor
  · rw [List.getD_append _ _ _ _ (by simp [hlen1]; omega)]
    rw [getD_set_ne _ _ _ _ _ (by omega), getD_set_ne _ _ _ _ _ (by omega)]
    rw [List.getD_append _ _ _ _ hi]
  · simp

/-- Claim C10, witness at a one-array heap. -/
theorem change_small_regions_preserves_input_array_witness :
    (change_small_regions_heap [⟨1, 1, [0]⟩] 0 5).1.getD 0 emptyGrid
      = List.getD ([⟨1, 1, [0]⟩] : List Grid) 0 emptyGrid ∧
    (change_small_regions_heap [⟨1, 1, [0]⟩] 0 5).2
      = List.length ([⟨1, 1, [0]⟩] : List Grid) + 1 :=
  change_small_regions_preserves_input_array [⟨1, 1, [0]⟩] 0 5 (by decide)

/-- Claim C8: the code computes BOTH validation booleans check_lat and
check_lon of zeropadding from the longitude values and the longitude
resolution, so the latitude axis is never validated. On lat = [0, 1, 2.5],
lon = [0, 1, 2] (latitude spacing detected as 1, but 2.5 is off that grid by
0.5, far beyond rel_tol * resolution = 0.01) the code raises no error and
produces a map: the value 30 of the point at latitude 2.5 is stored in the
row of latitude 2.0, the corrupted mapping the check was meant to prevent.
The latitude check as the specification describes it evaluates to false on
this input. -/
theorem zeropadding_skips_latitude_check :
    (zeropadding [0, 1, mkRat 5 2] [0, 1, 2] [10, 20, 30] (mkRat 1 100)).isSome = true ∧
    ((zeropadding [0, 1, mkRat 5 2] [0, 1, 2] [10, 20, 30] (mkRat 1 100)).map Prod.fst)
      = some [[10, 0, 0], [0, 20, 0], [0, 0, 30], [0, 0, 0]] ∧
    latRegularityCheck [0, 1, mkRat 5 2] (mkRat 1 100) = false := by
  refine ⟨?_, ?_, ?_⟩ <;> with_unfolding_all rfl

/-! Lemmas for the zeropadding round-trip (claim C9). -/

theorem foldl_max_mem {α : Type*} [LinearOrder α] (l : List α) (a : α) :
    l.foldl max a = a ∨ l.foldl max a ∈ l := by
  induction l generalizing a with
  | nil => exact Or.inl rfl
  | cons z zs ih =>
    rcases ih (max a z) with heq | hmem
    · rw [List.foldl_cons, heq]
      rcases max_choice a z with hc | hc
      · exact Or.inl hc
      · right
        rw [hc]
        exact List.mem_cons_self z zs
    · exact Or.inr (List.mem_cons_of_mem z hmem)

theorem mem_insertSorted (a x : ℚ) (l : List ℚ) : x ∈ insertSorted a l ↔ x = a ∨ x ∈ l := by
  induction l with
  | nil => simp [insertSorted]
  | cons y ys ih =>
    unfold insertSorted
    by_cases h : a ≤ y
    · rw [if_pos h]
      simp [List.mem_cons]
    · rw [if_neg h]
      simp only [List.mem_cons, ih]
      tauto

theorem mem_sortQ (x : ℚ) (l : List ℚ) : x ∈ sortQ l ↔ x ∈ l := by
  induction l with
  | nil => simp [sortQ]
  | cons y ys ih =>
    unfold sortQ at ih ⊢
    rw [List.foldr_cons, mem_insertSorted, ih, List.mem_cons]

theorem mem_uniqueSorted (x : ℚ) (l : List ℚ) : x ∈ uniqueSorted l ↔ x ∈ l := by
  unfold uniqueSorted
  rw [List.mem_dedup, mem_sortQ]

theorem listMinQ_le_mem (l : List ℚ) (x : ℚ) (hx : x ∈ l) : listMinQ l ≤ x := by
  rcases h : l with _ | ⟨y, ys⟩
  · rw [h] at hx
    cases hx
  · rw [h] at hx
    show List.foldl min y ys ≤ x
    rcases List.mem_cons.mp hx with rfl | hmem
    · exact Grid.foldl_min_le ys x
    · exact Grid.foldl_min_le_mem ys y x hmem

theorem mem_le_listMaxQ (l : List ℚ) (x : ℚ) (hx : x ∈ l) : x ≤ listMaxQ l := by
  rcases h : l with _ | ⟨y, ys⟩
  · rw [h] at hx
    cases hx
  · rw [h] at hx
    show x ≤ List.foldl max y ys
    rcases List.mem_cons.mp hx with rfl | hmem
    · exact Grid.le_foldl_max ys x
    · exact Grid.mem_le_foldl_max ys y x hmem

theorem listMaxQ_mem (l : List ℚ) (hne : l ≠ []) : listMaxQ l ∈ l := by
  rcases h : l with _ | ⟨y, ys⟩
  · exact absurd h hne
  · show List.foldl max y ys ∈ y :: ys
    rcases foldl_max_mem ys y with heq | hmem
    · rw [heq]
      exact List.mem_cons_self y ys
    · exact List.mem_cons_of_mem y hmem

theorem listMaxQ_all_zero (l : List ℚ) (h : ∀ x ∈ l, x = 0) : listMaxQ l = 0 := by
  rcases hl : l with _ | ⟨y, ys⟩
  · rfl
  · show List.foldl max y ys = 0
    rw [hl] at h
    rw [h y (List.mem_cons_self y ys)]
    exact foldl_max_all_eq ys 0 (fun x hx => h x (List.mem_cons_of_mem y hx))

theorem minPosDiff_nil : minPosDiff [] = 0 := rfl

theorem ne_nil_of_minPosDiff_pos (xs : List ℚ) (h : 0 < minPosDiff xs) : xs ≠ [] := by
  intro hnil
  rw [hnil, minPosDiff_nil] at h
  exact lt_irrefl 0 h

theorem qmod_int_mul (z : ℤ) (r : ℚ) (hr : r ≠ 0) : qmod ((z : ℚ) * r) r = 0 := by
  unfold qmod
  rw [mul_div_cancel_right₀ _ hr, Int.floor_intCast]
  ring

theorem diffsQ_mem (xs : List ℚ) (d : ℚ) (hd : d ∈ diffsQ xs) :
    ∃ a ∈ xs, ∃ b ∈ xs, d = b - a := by
  unfold diffsQ at hd
  obtain ⟨i, hi, hEq⟩ := List.mem_iff_getElem.mp hd
  rw [List.getElem_zipWith] at hEq
  obtain ⟨ht1, ht2⟩ : i < xs.tail.length ∧ i < xs.length := by
    constructor <;> [skip; skip] <;>
      · have := hi
        simp only [List.length_zipWith, lt_min_iff] at this
        omega
  refine ⟨xs[i], List.getElem_mem _, xs.tail[i], ?_, hEq.symm⟩
  rw [List.getElem_tail]
  exact List.getElem_mem _

theorem regularityCheck_passes (vals : List ℚ) (tol : ℚ) (htol : 0 < tol)
    (hr : 0 < minPosDiff vals)
    (hgrid : ∀ x ∈ vals, ∃ k : ℕ, x = listMinQ vals + (k : ℚ) * minPosDiff vals) :
    regularityCheck vals (minPosDiff vals) tol = true := by
  unfold regularityCheck
  rw [decide_eq_true_iff]
  have hall : ∀ x ∈ ((diffsQ ((uniqueSorted vals).map (fun y => y - listMinQ vals))).map
      (fun d => qmod d (minPosDiff vals))), x = 0 := by
    intro x hx
    obtain ⟨d, hd, rfl⟩ := List.mem_map.mp hx
    obtain ⟨a, ha, b, hb, rfl⟩ := diffsQ_mem _ d hd
    obtain ⟨a0, ha0, rfl⟩ := List.mem_map.mp ha
    obtain ⟨b0, hb0, rfl⟩ := List.mem_map.mp hb
    obtain ⟨ka, hka⟩ := hgrid a0 ((mem_uniqueSorted a0 vals).mp ha0)
    obtain ⟨kb, hkb⟩ := hgrid b0 ((mem_uniqueSorted b0 vals).mp hb0)
    have hdiff : (b0 - listMinQ vals) - (a0 - listMinQ vals)
        = ((((kb : ℤ) - (ka : ℤ)) : ℤ) : ℚ) * minPosDiff vals := by
      rw [hka, hkb]
      push_cast
      ring
    rw [hdiff]
    exact qmod_int_mul ((kb : ℤ) - (ka : ℤ)) _ (ne_of_gt hr)
  rw [listMaxQ_all_zero _ hall]
  exact mul_pos hr htol

theorem arangeQ_length (a b s : ℚ) : (arangeQ a b s).length = (⌈(b - a) / s⌉).toNat := by
  simp [arangeQ]

theorem arangeQ_getD (a b s : ℚ) (k : Nat) (hk : k < (⌈(b - a) / s⌉).toNat) :
    (arangeQ a b s).getD k 0 = a + (k : ℚ) * s := by
  unfold arangeQ
  rw [List.getD_eq_getElem _ _ (by simpa using hk), List.getElem_map, List.getElem_range]

theorem arange_exact_length (mn mx r : ℚ) (hr : 0 < r) (K : ℕ) (hmx : mx = mn + (K : ℚ) * r) :
    (arangeQ mn (mx + r) r).length = K + 1 := by
  rw [arangeQ_length]
  have hq : (mx + r - mn) / r = ((K + 1 : ℕ) : ℚ) := by
    rw [hmx]
    push_cast
    field_simp
    ring
  rw [hq, Int.ceil_natCast]
  simp

theorem truncIdx_exact (mn r : ℚ) (hr : 0 < r) (k : ℕ) :
    truncIdx (mn + (k : ℚ) * r) mn r = k := by
  unfold truncIdx
  have hq : (mn + (k : ℚ) * r - mn) / r = ((k : ℕ) : ℚ) := by
    field_simp
  rw [hq, Int.floor_natCast]
  simp

theorem prodPairs_length (A B : List ℚ) : (prodPairs A B).length = A.length * B.length := by
  induction A with
  | nil => simp [prodPairs]
  | cons a A2 ih =>
    unfold prodPairs at ih ⊢
    rw [List.flatMap_cons, List.length_append, ih, List.length_map, List.length_cons]
    ring

theorem prodPairs_getD (A B : List ℚ) (q s : Nat) (hq : q < A.length) (hs : s < B.length) :
    (prodPairs A B).getD (q * B.length + s) (0, 0) = (A.getD q 0, B.getD s 0) := by
  induction A generalizing q with
  | nil => simp at hq
  | cons a A2 ih =>
    unfold prodPairs at ih ⊢
    rw [List.flatMap_cons]
    cases q with
    | zero =>
      rw [Nat.zero_mul, Nat.zero_add]
      rw [List.getD_append _ _ _ _ (by simpa using hs)]
      rw [List.getD_eq_getElem _ _ (by simpa using hs), List.getElem_map]
      rw [List.getD_eq_getElem _ _ hs]
      rfl
    | succ q2 =>
      have hidx : q2.succ * B.length + s = (B.map (fun x => (a, x))).length
          + (q2 * B.length + s) := by
        rw [List.length_map, Nat.succ_mul]
        ring
      rw [hidx, List.getD_append_right _ _ _ _ (by omega)]
      have hq2 : q2 < A2.length := by simpa using hq
      have := ih q2 hq2
      rw [Nat.add_sub_cancel_left]
      rw [this]
      rfl

theorem meshgrid_eq_prodPairs (A B : List ℚ) :
    (List.range (A.length * B.length)).map
      (fun t => (A.getD (t / B.length) 0, B.getD (t % B.length) 0)) = prodPairs A B := by
  apply List.ext_getElem
  · rw [prodPairs_length, List.length_map, List.length_range]
  · intro t h1 h2
    rw [List.getElem_map, List.getElem_range]
    have ht : t < A.length * B.length := by simpa using h1
    have hb : 0 < B.length := by
      rcases Nat.eq_zero_or_pos B.length with hz | hp
      · rw [hz, Nat.mul_zero] at ht
        omega
      · exact hp
    have hq : t / B.length < A.length := (Nat.div_lt_iff_lt_mul hb).mpr ht
    have hs : t % B.length < B.length := Nat.mod_lt _ hb
    have hpg := prodPairs_getD A B (t / B.length) (t % B.length) hq hs
    rw [Nat.div_add_mod' t B.length] at hpg
    rw [← hpg, List.getD_eq_getElem _ _ (by rw [prodPairs_length]; exact ht)]

theorem getD_set_self {α : Type*} (l : List α) (n : Nat) (x : α) (d : α) (h : n < l.length) :
    (l.set n x).getD n d = x := by
  rw [List.getD_eq_getD_get?, List.get?_eq_getElem?, List.getElem?_set_eq_of_lt x h]
  rfl

theorem getD_set_out {α : Type*} (l : List α) (n : Nat) (x : α) (d : α) (h : ¬ n < l.length) :
    (l.set n x).getD n d = l.getD n d := by
  rw [List.getD_eq_default _ _ (by rw [List.length_set]; omega),
    List.getD_eq_default _ _ (by omega)]

theorem matSet_getD2_ne (m : List (List ℚ)) (a b : Nat) (v : ℚ) (i j : Nat)
    (hne : (a, b) ≠ (i, j)) : getMat (matSet m a b v) i j = getMat m i j := by
  unfold getMat matSet
  by_cases hai : a = i
  · subst hai
    have hbj : b ≠ j := by
      intro hb
      exact hne (by rw [hb])
    by_cases hlen : a < m.length
    · rw [getD_set_self _ _ _ _ hlen, getD_set_ne _ _ _ _ _ hbj]
    · rw [getD_set_out _ _ _ _ hlen]
  · rw [getD_set_ne _ _ _ _ _ hai]

theorem matSet_length (m : List (List ℚ)) (a b : Nat) (v : ℚ) :
    (matSet m a b v).length = m.length := by
  unfold matSet
  exact List.length_set m a _

theorem matSet_row_length (m : List (List ℚ)) (a b : Nat) (v : ℚ) (i : Nat) :
    ((matSet m a b v).getD i []).length = (m.getD i []).length := by
  unfold matSet
  by_cases hai : a = i
  · subst hai
    by_cases hlen : a < m.length
    · rw [getD_set_self _ _ _ _ hlen, List.length_set]
    · rw [getD_set_out _ _ _ _ hlen]
  · rw [getD_set_ne _ _ _ _ _ hai]

theorem scatter_preserved (L2 : List (Nat × Nat × ℚ)) (m : List (List ℚ)) (i j : Nat)
    (h : ∀ t ∈ L2, (t.1, t.2.1) ≠ (i, j)) :
    getMat (scatterVals m L2) i j = getMat m i j := by
  induction L2 generalizing m with
  | nil => rfl
  | cons t ts ih =>
    show getMat (scatterVals (matSet m t.1 t.2.1 t.2.2) ts) i j = getMat m i j
    rw [ih (matSet m t.1 t.2.1 t.2.2) (fun u hu => h u (List.mem_cons_of_mem t hu))]
    exact matSet_getD2_ne m t.1 t.2.1 t.2.2 i j (h t (List.mem_cons_self t ts))

theorem scatter_get (L2 : List (Nat × Nat × ℚ)) (m : List (List ℚ))
    (hpw : L2.Pairwise (fun a b => (a.1, a.2.1) ≠ (b.1, b.2.1)))
    (i j : Nat) (v : ℚ) (hmem : (i, j, v) ∈ L2)
    (hi : i < m.length) (hj : j < (m.getD i []).length) :
    getMat (scatterVals m L2) i j = v := by
  induction L2 generalizing m with
  | nil => cases hmem
  | cons t ts ih =>
    rw [List.pairwise_cons] at hpw
    rcases List.mem_cons.mp hmem with heq | hmem2
    · subst heq
      show getMat (scatterVals (matSet m i j v) ts) i j = v
      rw [scatter_preserved ts (matSet m i j v) i j
        (fun u hu => (hpw.1 u hu).symm)]
      unfold getMat matSet
      rw [getD_set_self _ _ _ _ hi, getD_set_self _ _ _ _ hj]
    · show getMat (scatterVals (matSet m t.1 t.2.1 t.2.2) ts) i j = v
      exact ih (matSet m t.1 t.2.1 t.2.2) hpw.2 hmem2
        (by rw [matSet_length]; exact hi)
        (by rw [matSet_row_length]; exact hj)

theorem arange_ceil_eq (mn mx r : ℚ) (hr : 0 < r) (K : ℕ) (hmx : mx = mn + (K : ℚ) * r) :
    (⌈(mx + r - mn) / r⌉).toNat = K + 1 := by
  have h := arange_exact_length mn mx r hr K hmx
  rw [arangeQ_length] at h
  exact h

theorem arange_axis_spans (mn mx r : ℚ) (hr : 0 < r) (K : ℕ) (hmx : mx = mn + (K : ℚ) * r) :
    (∀ y ∈ arangeQ mn (mx + r) r, mn ≤ y ∧ y ≤ mx) ∧ mx ∈ arangeQ mn (mx + r) r := by
  have hceil := arange_ceil_eq mn mx r hr K hmx
  constructor
  · intro y hy
    unfold arangeQ at hy
    obtain ⟨t, ht, rfl⟩ := List.mem_map.mp hy
    rw [List.mem_range, hceil] at ht
    constructor
    · have hnn : (0 : ℚ) ≤ (t : ℚ) * r := mul_nonneg (Nat.cast_nonneg t) (le_of_lt hr)
      linarith
    · have htK : (t : ℚ) ≤ (K : ℚ) := by exact_mod_cast (by omega : t ≤ K)
      have hle : (t : ℚ) * r ≤ (K : ℚ) * r := mul_le_mul_of_nonneg_right htK (le_of_lt hr)
      rw [hmx]
      linarith
  · unfold arangeQ
    apply List.mem_map.mpr
    refine ⟨K, ?_, hmx.symm⟩
    rw [List.mem_range, hceil]
    omega

theorem arange_getD_exact (mn mx r : ℚ) (hr : 0 < r) (K a : ℕ) (hmx : mx = mn + (K : ℚ) * r)
    (ha : a ≤ K) : (arangeQ mn (mx + r) r).getD a 0 = mn + (a : ℚ) * r := by
  apply arangeQ_getD
  rw [arange_ceil_eq mn mx r hr K hmx]
  omega

theorem truncIdx_le_of_le (mn r x mx : ℚ) (hr : 0 < r) (a K : ℕ) (hx : x = mn + (a : ℚ) * r)
    (hmx : mx = mn + (K : ℚ) * r) (hle : x ≤ mx) : a ≤ K := by
  rw [hx, hmx] at hle
  have h1 : (a : ℚ) * r ≤ (K : ℚ) * r := by linarith
  have h2 : (a : ℚ) ≤ (K : ℚ) := le_of_mul_le_mul_right h1 hr
  exact_mod_cast h2

/-- Claim C9: for scattered points whose coordinates lie exactly on a regular
grid at the detected spacing (every latitude is min-lat plus a natural
multiple of the detected latitude resolution, likewise for the longitudes),
with pairwise distinct (lat, lon) pairs and coordinates that are exact
12-decimal values, zeropadding succeeds and the round trip holds: the
coordinate output is the row-major product of the two axis ranges, each axis
spans exactly [min, max] at the detected spacing, and every input value sits
in the output map at the indices of its own coordinates (which index exactly
those coordinates in the axis ranges). -/
theorem zeropadding_regrid_roundtrip (lat lon val : List ℚ) (tol : ℚ) (htol : 0 < tol)
    (hlen1 : lon.length = lat.length) (hlen2 : val.length = lat.length)
    (hround_lat : lat.map round12 = lat) (hround_lon : lon.map round12 = lon)
    (hrlat : 0 < minPosDiff lat) (hrlon : 0 < minPosDiff lon)
    (hgrid_lat : ∀ x ∈ lat, ∃ k : ℕ, x = listMinQ lat + (k : ℚ) * minPosDiff lat)
    (hgrid_lon : ∀ x ∈ lon, ∃ k : ℕ, x = listMinQ lon + (k : ℚ) * minPosDiff lon)
    (hdistinct : (lat.zip lon).Pairwise (fun a b => a ≠ b)) :
    ∃ mr cr, zeropadding lat lon val tol = some (mr, cr) ∧
      cr = prodPairs (arangeQ (listMinQ lat) (listMaxQ lat + minPosDiff lat) (minPosDiff lat))
        (arangeQ (listMinQ lon) (listMaxQ lon + minPosDiff lon) (minPosDiff lon)) ∧
      (∀ y ∈ arangeQ (listMinQ lat) (listMaxQ lat + minPosDiff lat) (minPosDiff lat),
        listMinQ lat ≤ y ∧ y ≤ listMaxQ lat) ∧
      listMaxQ lat ∈ arangeQ (listMinQ lat) (listMaxQ lat + minPosDiff lat) (minPosDiff lat) ∧
      (∀ x ∈ arangeQ (listMinQ lon) (listMaxQ lon + minPosDiff lon) (minPosDiff lon),
        listMinQ lon ≤ x ∧ x ≤ listMaxQ lon) ∧
      listMaxQ lon ∈ arangeQ (listMinQ lon) (listMaxQ lon + minPosDiff lon) (minPosDiff lon) ∧
      ∀ k, k < lat.length →
        (arangeQ (listMinQ lat) (listMaxQ lat + minPosDiff lat) (minPosDiff lat)).getD
            (truncIdx (lat.getD k 0) (listMinQ lat) (minPosDiff lat)) 0 = lat.getD k 0 ∧
        (arangeQ (listMinQ lon) (listMaxQ lon + minPosDiff lon) (minPosDiff lon)).getD
            (truncIdx (lon.getD k 0) (listMinQ lon) (minPosDiff lon)) 0 = lon.getD k 0 ∧
        getMat mr (truncIdx (lat.getD k 0) (listMinQ lat) (minPosDiff lat))
            (truncIdx (lon.getD k 0) (listMinQ lon) (minPosDiff lon)) = val.getD k 0 := by
  have habsY : |minPosDiff lat| = minPosDiff lat := abs_of_pos hrlat
  have habsX : |minPosDiff lon| = minPosDiff lon := abs_of_pos hrlon
  have hneY : lat ≠ [] := ne_nil_of_minPosDiff_pos lat hrlat
  have hneX : lon ≠ [] := ne_nil_of_minPosDiff_pos lon hrlon
  obtain ⟨KY, hKY⟩ := hgrid_lat (listMaxQ lat) (listMaxQ_mem lat hneY)
  obtain ⟨KX, hKX⟩ := hgrid_lon (listMaxQ lon) (listMaxQ_mem lon hneX)
  have hlenY := arange_exact_length (listMinQ lat) (listMaxQ lat) (minPosDiff lat) hrlat KY hKY
  have hlenX := arange_exact_length (listMinQ lon) (listMaxQ lon) (minPosDiff lon) hrlon KX hKX
  have hchkX : regularityCheck lon (minPosDiff lon) tol = true :=
    regularityCheck_passes lon tol htol hrlon hgrid_lon
  simp only [zeropadding, hround_lat, hround_lon, habsY, habsX]
  rw [if_neg (by simp [hchkX])]
  refine ⟨_, _, rfl, meshgrid_eq_prodPairs _ _,
    (arange_axis_spans _ _ _ hrlat KY hKY).1, (arange_axis_spans _ _ _ hrlat KY hKY).2,
    (arange_axis_spans _ _ _ hrlon KX hKX).1, (arange_axis_spans _ _ _ hrlon KX hKX).2, ?_⟩
  intro k hk
  have hklon : k < lon.length := by omega
  have hkval : k < val.length := by omega
  have hlatk : lat.getD k 0 = lat[k] := List.getD_eq_getElem lat 0 hk
  have hlonk : lon.getD k 0 = lon[k] := List.getD_eq_getElem lon 0 hklon
  have hvalk : val.getD k 0 = val[k] := List.getD_eq_getElem val 0 hkval
  obtain ⟨ak, hak⟩ := hgrid_lat (lat[k]) (List.getElem_mem hk)
  obtain ⟨bk, hbk⟩ := hgrid_lon (lon[k]) (List.getElem_mem hklon)
  have hakK : ak ≤ KY := truncIdx_le_of_le _ _ _ _ hrlat ak KY hak hKY
    (mem_le_listMaxQ lat _ (List.getElem_mem hk))
  have hbkK : bk ≤ KX := truncIdx_le_of_le _ _ _ _ hrlon bk KX hbk hKX
    (mem_le_listMaxQ lon _ (List.getElem_mem hklon))
  have hik : truncIdx (lat.getD k 0) (listMinQ lat) (minPosDiff lat) = ak := by
    rw [hlatk, hak]
    exact truncIdx_exact _ _ hrlat ak
  have hjk : truncIdx (lon.getD k 0) (listMinQ lon) (minPosDiff lon) = bk := by
    rw [hlonk, hbk]
    exact truncIdx_exact _ _ hrlon bk
  refine ⟨?_, ?_, ?_⟩
  · rw [hik, arange_getD_exact _ _ _ hrlat KY ak hKY hakK, hlatk, hak]
  · rw [hjk, arange_getD_exact _ _ _ hrlon KX bk hKX hbkK, hlonk, hbk]
  · -- the scatter write
    have hLlen : ((lat.map (fun x => truncIdx x (listMinQ lat) (minPosDiff lat))).zip
        ((lon.map (fun x => truncIdx x (listMinQ lon) (minPosDiff lon))).zip val)).length
        = lat.length := by
      simp [hlen1, hlen2]
    have hcomp : ∀ u, u < lat.length →
        ((lat.map (fun x => truncIdx x (listMinQ lat) (minPosDiff lat))).zip
          ((lon.map (fun x => truncIdx x (listMinQ lon) (minPosDiff lon))).zip val)).getD
            u (0, 0, 0)
          = (truncIdx (lat.getD u 0) (listMinQ lat) (minPosDiff lat),
             truncIdx (lon.getD u 0) (listMinQ lon) (minPosDiff lon),
             val.getD u 0) := by
      intro u hu2
      rw [List.getD_eq_getElem _ _ (by rw [hLlen]; exact hu2)]
      rw [List.getElem_zip, List.getElem_zip, List.getElem_map, List.getElem_map]
      rw [List.getD_eq_getElem lat 0 hu2, List.getD_eq_getElem lon 0 (by omega),
        List.getD_eq_getElem val 0 (by omega)]
    have hrecY : ∀ x ∈ lat,
        x = listMinQ lat + (truncIdx x (listMinQ lat) (minPosDiff lat) : ℚ) * minPosDiff lat := by
      intro x hx
      obtain ⟨a, ha⟩ := hgrid_lat x hx
      rw [ha, truncIdx_exact _ _ hrlat a]
    have hrecX : ∀ x ∈ lon,
        x = listMinQ lon + (truncIdx x (listMinQ lon) (minPosDiff lon) : ℚ) * minPosDiff lon := by
      intro x hx
      obtain ⟨a, ha⟩ := hgrid_lon x hx
      rw [ha, truncIdx_exact _ _ hrlon a]
    apply scatter_get
    · -- pairwise distinct index pairs
      rw [List.pairwise_iff_getElem]
      intro u w hu hw huw
      have hu2 : u < lat.length := by rw [hLlen] at hu; exact hu
      have hw2 : w < lat.length := by rw [hLlen] at hw; exact hw
      intro heq
      have hLu : (((lat.map (fun x => truncIdx x (listMinQ lat) (minPosDiff lat))).zip
          ((lon.map (fun x => truncIdx x (listMinQ lon) (minPosDiff lon))).zip val))[u])
          = (truncIdx (lat.getD u 0) (listMinQ lat) (minPosDiff lat),
             truncIdx (lon.getD u 0) (listMinQ lon) (minPosDiff lon),
             val.getD u 0) := by
        rw [← hcomp u hu2, List.getD_eq_getElem]
      have hLw : (((lat.map (fun x => truncIdx x (listMinQ lat) (minPosDiff lat))).zip
          ((lon.map (fun x => truncIdx x (listMinQ lon) (minPosDiff lon))).zip val))[w])
          = (truncIdx (lat.getD w 0) (listMinQ lat) (minPosDiff lat),
             truncIdx (lon.getD w 0) (listMinQ lon) (minPosDiff lon),
             val.getD w 0) := by
        rw [← hcomp w hw2, List.getD_eq_getElem]
      rw [hLu, hLw] at heq
      have heq1 : truncIdx (lat.getD u 0) (listMinQ lat) (minPosDiff lat)
          = truncIdx (lat.getD w 0) (listMinQ lat) (minPosDiff lat) := congrArg Prod.fst heq
      have heq2 : truncIdx (lon.getD u 0) (listMinQ lon) (minPosDiff lon)
          = truncIdx (lon.getD w 0) (listMinQ lon) (minPosDiff lon) := congrArg Prod.snd heq
      have hmemu : lat.getD u 0 ∈ lat := by
        rw [List.getD_eq_getElem _ _ hu2]
        exact List.getElem_mem _
      have hmemw : lat.getD w 0 ∈ lat := by
        rw [List.getD_eq_getElem _ _ hw2]
        exact List.getElem_mem _
      have hmemu2 : lon.getD u 0 ∈ lon := by
        rw [List.getD_eq_getElem _ _ (by omega : u < lon.length)]
        exact List.getElem_mem _
      have hmemw2 : lon.getD w 0 ∈ lon := by
        rw [List.getD_eq_getElem _ _ (by omega : w < lon.length)]
        exact List.getElem_mem _
      have hlateq : lat.getD u 0 = lat.getD w 0 := by
        rw [hrecY _ hmemu, heq1]
        exact (hrecY _ hmemw).symm
      have hloneq : lon.getD u 0 = lon.getD w 0 := by
        rw [hrecX _ hmemu2, heq2]
        exact (hrecX _ hmemw2).symm
      rw [List.pairwise_iff_getElem] at hdistinct
      have hzlen2 : (lat.zip lon).length = lat.length := by simp [hlen1]
      have hne := hdistinct u w (by rw [hzlen2]; omega) (by rw [hzlen2]; omega) huw
      rw [List.getElem_zip, List.getElem_zip] at hne
      apply hne
      rw [Prod.mk.injEq]
      constructor
      · rw [← List.getD_eq_getElem lat 0 hu2, ← List.getD_eq_getElem lat 0 hw2]
        exact hlateq
      · rw [← List.getD_eq_getElem lon 0 (by omega : u < lon.length),
          ← List.getD_eq_getElem lon 0 (by omega : w < lon.length)]
        exact hloneq
    · -- membership of the written triple
      rw [← hcomp k hk, List.getD_eq_getElem _ _ (by rw [hLlen]; exact hk)]
      exact List.getElem_mem _
    · -- row index in bounds
      rw [hik]
      unfold zeroMat
      rw [List.length_replicate, hlenY]
      omega
    · -- column index in bounds
      rw [hjk]
      have hrow : (zeroMat (arangeQ (listMinQ lat) (listMaxQ lat + minPosDiff lat)
            (minPosDiff lat)).length (arangeQ (listMinQ lon) (listMaxQ lon + minPosDiff lon)
            (minPosDiff lon)).length).getD (truncIdx (lat.getD k 0) (listMinQ lat)
            (minPosDiff lat)) []
          = List.replicate (arangeQ (listMinQ lon) (listMaxQ lon + minPosDiff lon)
            (minPosDiff lon)).length 0 := by
        unfold zeroMat
        rw [List.getD_eq_getElem _ _ (by rw [List.length_replicate, hlenY, hik]; omega)]
        apply List.getElem_replicate
      rw [hrow, List.length_replicate, hlenX]
      omega

/-- Claim C9, witness: the hypotheses are satisfiable, at the unit grid
lat = lon = [0, 1] with values [1, 2]. -/
theorem zeropadding_regrid_roundtrip_witness :
    (zeropadding [0, 1] [0, 1] [1, 2] (mkRat 1 100)).isSome = true := by
  have hres : minPosDiff [(0 : ℚ), 1] = 1 := by with_unfolding_all rfl
  have hmn : listMinQ [(0 : ℚ), 1] = 0 := by with_unfolding_all rfl
  have hgrid : ∀ x ∈ [(0 : ℚ), 1], ∃ k : ℕ, x = listMinQ [(0 : ℚ), 1]
      + (k : ℚ) * minPosDiff [(0 : ℚ), 1] := by
    intro x hx
    rw [hres, hmn]
    rcases List.mem_cons.mp hx with rfl | hx2
    · exact ⟨0, by norm_num⟩
    · rcases List.mem_cons.mp hx2 with rfl | hx3
      · exact ⟨1, by norm_num⟩
      · cases hx3
  obtain ⟨mr, cr, heq, -⟩ := zeropadding_regrid_roundtrip [0, 1] [0, 1] [1, 2] (mkRat 1 100)
    (by decide) rfl rfl (by with_unfolding_all rfl) (by with_unfolding_all rfl)
    (by rw [hres]; norm_num) (by rw [hres]; norm_num) hgrid hgrid (by decide)
  rw [heq]
  rfl

/-! Machinery for the idempotence of the small-region merge (claim C5). -/

theorem mem_allPos (g : Grid) (p : Nat × Nat) :
    p ∈ g.allPos ↔ p.1 < g.rows ∧ p.2 < g.cols := by
  unfold Grid.allPos
  constructor
  · intro hp
    obtain ⟨r, hr, hp2⟩ := List.mem_flatMap.mp hp
    obtain ⟨c, hc, rfl⟩ := List.mem_map.mp hp2
    rw [List.mem_range] at hr hc
    exact ⟨hr, hc⟩
  · rintro ⟨h1, h2⟩
    apply List.mem_flatMap.mpr
    refine ⟨p.1, List.mem_range.mpr h1, ?_⟩
    apply List.mem_map.mpr
    exact ⟨p.2, List.mem_range.mpr h2, rfl⟩

theorem allPos_nodup (g : Grid) : g.allPos.Nodup := by
  unfold Grid.allPos
  rw [List.nodup_flatMap]
  constructor
  · intro r _
    exact (List.nodup_range g.cols).map (fun a b h => by simpa using h)
  · rw [List.pairwise_iff_getElem]
    intro r1 r2 h1 h2 hlt
    rw [List.getElem_range, List.getElem_range]
    intro q hq1 hq2
    obtain ⟨c1, _, rfl⟩ := List.mem_map.mp hq1
    obtain ⟨c2, _, heq⟩ := List.mem_map.mp hq2
    have : r2 = r1 := by simpa using congrArg Prod.fst heq
    omega

theorem length_allPos (g : Grid) : g.allPos.length = g.rows * g.cols := by
  unfold Grid.allPos
  rw [List.length_flatMap]
  simp only [Function.comp_def]
  have hmap : (List.range g.rows).map (fun r =>
      ((List.range g.cols).map (fun c => (r, c))).length)
      = List.replicate g.rows g.cols := by
    have h2 : (fun (r : Nat) => ((List.range g.cols).map (fun c => (r, c))).length)
        = fun (_ : Nat) => g.cols := by
      funext r
      simp
    rw [h2, List.map_const', List.length_range]
  rw [hmap, List.sum_replicate, smul_eq_mul]

theorem nbr8_iff (p q : Nat × Nat) : nbr8 p q = true ↔ Adj p q := by
  unfold nbr8 Adj
  simp only [Bool.and_eq_true, decide_eq_true_iff]
  tauto

theorem adj_symm (p q : Nat × Nat) (h : Adj p q) : Adj q p := by
  obtain ⟨h1, h2, h3⟩ := h
  exact ⟨fun he => h1 he.symm, by omega, by omega⟩

theorem mem_compStep (g : Grid) (s : List (Nat × Nat)) (q : Nat × Nat) :
    q ∈ compStep g s ↔ q ∈ g.allPos ∧
      (q ∈ s ∨ ∃ m ∈ s, Adj m q ∧ g.get m = g.get q) := by
  unfold compStep
  rw [List.mem_filter]
  apply and_congr_right
  intro _
  rw [Bool.or_eq_true, List.elem_iff, List.any_eq_true]
  apply or_congr
  · exact Iff.rfl
  · constructor
    · rintro ⟨m, hm, hb⟩
      rw [Bool.and_eq_true, nbr8_iff, decide_eq_true_iff] at hb
      exact ⟨m, hm, hb.1, hb.2⟩
    · rintro ⟨m, hm, h1, h2⟩
      refine ⟨m, hm, ?_⟩
      rw [Bool.and_eq_true, nbr8_iff, decide_eq_true_iff]
      exact ⟨h1, h2⟩

theorem compStep_nodup (g : Grid) (s : List (Nat × Nat)) : (compStep g s).Nodup :=
  (allPos_nodup g).filter _

theorem compStep_subset_allPos (g : Grid) (s : List (Nat × Nat)) :
    ∀ q ∈ compStep g s, q ∈ g.allPos := by
  intro q hq
  exact ((mem_compStep g s q).mp hq).1

theorem compStep_mono (g : Grid) (s t : List (Nat × Nat)) (h : ∀ x ∈ s, x ∈ t) :
    ∀ q ∈ compStep g s, q ∈ compStep g t := by
  intro q hq
  rw [mem_compStep] at hq ⊢
  refine ⟨hq.1, ?_⟩
  rcases hq.2 with h1 | ⟨m, hm, h2, h3⟩
  · exact Or.inl (h q h1)
  · exact Or.inr ⟨m, h m hm, h2, h3⟩

theorem subset_compStep (g : Grid) (s : List (Nat × Nat)) (hs : ∀ x ∈ s, x ∈ g.allPos) :
    ∀ q ∈ s, q ∈ compStep g s := by
  intro q hq
  rw [mem_compStep]
  exact ⟨hs q hq, Or.inl hq⟩

theorem compStep_congr (g : Grid) (s t : List (Nat × Nat)) (h : ∀ x, x ∈ s ↔ x ∈ t) :
    compStep g s = compStep g t := by
  unfold compStep
  apply List.filter_congr
  intro q _
  have h1 : s.contains q = t.contains q := by
    apply Bool.eq_iff_iff.mpr
    rw [List.elem_iff, List.elem_iff]
    exact h q
  have h2 : (s.any fun p => nbr8 p q && decide (g.get p = g.get q))
      = (t.any fun p => nbr8 p q && decide (g.get p = g.get q)) := by
    apply Bool.eq_iff_iff.mpr
    rw [List.any_eq_true, List.any_eq_true]
    constructor
    · rintro ⟨p, hp, hpb⟩
      exact ⟨p, (h p).mp hp, hpb⟩
    · rintro ⟨p, hp, hpb⟩
      exact ⟨p, (h p).mpr hp, hpb⟩
  rw [h1, h2]

theorem iter_subset_allPos (g : Grid) (p : Nat × Nat) (m : Nat) :
    ∀ q ∈ (fun s => compStep g s)^[m + 1] [p], q ∈ g.allPos := by
  rw [Function.iterate_succ_apply']
  exact compStep_subset_allPos g _

theorem iter_nodup (g : Grid) (p : Nat × Nat) (m : Nat) :
    ((fun s => compStep g s)^[m] [p]).Nodup := by
  cases m with
  | zero => simp
  | succ k =>
    rw [Function.iterate_succ_apply']
    exact compStep_nodup g _

theorem iter_subset_succ (g : Grid) (p : Nat × Nat) (hp : p ∈ g.allPos) (m : Nat) :
    ∀ q ∈ (fun s => compStep g s)^[m] [p], q ∈ (fun s => compStep g s)^[m + 1] [p] := by
  induction m with
  | zero =>
    intro q hq
    rw [Function.iterate_zero_apply, List.mem_singleton] at hq
    rw [Function.iterate_one, hq]
    exact subset_compStep g [p] (by simpa using hp) p (by simp)
  | succ k ih =>
    rw [Function.iterate_succ_apply', Function.iterate_succ_apply']
    exact compStep_mono g _ _ ih

theorem iter_mono_le (g : Grid) (p : Nat × Nat) (hp : p ∈ g.allPos) (m n : Nat) (h : m ≤ n) :
    ∀ q ∈ (fun s => compStep g s)^[m] [p], q ∈ (fun s => compStep g s)^[n] [p] := by
  induction n with
  | zero =>
    intro q hq
    rw [Nat.le_zero] at h
    subst h
    exact hq
  | succ k ih =>
    intro q hq
    rcases Nat.lt_or_ge m (k + 1) with hlt | hge
    · exact iter_subset_succ g p hp k q (ih (by omega) q hq)
    · have : m = k + 1 := by omega
      subst this
      exact hq

theorem self_mem_iter (g : Grid) (p : Nat × Nat) (hp : p ∈ g.allPos) (m : Nat) :
    p ∈ (fun s => compStep g s)^[m] [p] :=
  iter_mono_le g p hp 0 m (Nat.zero_le m) p (by simp)

theorem iter_stable_of_members (g : Grid) (p : Nat × Nat) (m : Nat)
    (h : ∀ x, x ∈ (fun s => compStep g s)^[m] [p] ↔ x ∈ (fun s => compStep g s)^[m + 1] [p]) :
    ∀ t, (fun s => compStep g s)^[m + 1 + t] [p] = (fun s => compStep g s)^[m + 1] [p] := by
  intro t
  induction t with
  | zero => rfl
  | succ k ih =>
    have hstep : (fun s => compStep g s)^[m + 1 + (k + 1)] [p]
        = compStep g ((fun s => compStep g s)^[m + 1 + k] [p]) := by
      rw [show m + 1 + (k + 1) = (m + 1 + k) + 1 from rfl, Function.iterate_succ_apply']
    rw [hstep, ih]
    have h2 : compStep g ((fun s => compStep g s)^[m + 1] [p])
        = compStep g ((fun s => compStep g s)^[m] [p]) :=
      compStep_congr g _ _ (fun x => (h x).symm)
    rw [h2]
    exact (Function.iterate_succ_apply' _ _ _).symm

theorem exists_stable_iter (g : Grid) (p : Nat × Nat) (hp : p ∈ g.allPos) :
    ∃ m ≤ g.rows * g.cols, ∀ x,
      x ∈ (fun s => compStep g s)^[m] [p] ↔ x ∈ (fun s => compStep g s)^[m + 1] [p] := by
  by_contra hcon
  push_neg at hcon
  have hgrow : ∀ m ≤ g.rows * g.cols,
      ((fun s => compStep g s)^[m] [p]).length < ((fun s => compStep g s)^[m + 1] [p]).length := by
    intro m hm
    obtain ⟨x, hx⟩ := hcon m hm
    have hsub : ∀ q ∈ (fun s => compStep g s)^[m] [p],
        q ∈ (fun s => compStep g s)^[m + 1] [p] := iter_subset_succ g p hp m
    have hsp : ((fun s => compStep g s)^[m] [p]).Subperm ((fun s => compStep g s)^[m + 1] [p]) :=
      (iter_nodup g p m).subperm hsub
    have hle := hsp.length_le
    rcases Nat.lt_or_ge ((fun s => compStep g s)^[m] [p]).length
        ((fun s => compStep g s)^[m + 1] [p]).length with hlt | hge
    · exact hlt
    · exfalso
      have hperm := hsp.perm_of_length_le hge
      rcases hx with ⟨h1, h2⟩ | ⟨h1, h2⟩
      · exact h2 (hsub x h1)
      · exact h1 (hperm.mem_iff.mpr h2)
  have hlen : ∀ m ≤ g.rows * g.cols + 1, m ≤ ((fun s => compStep g s)^[m] [p]).length := by
    intro m
    induction m with
    | zero => intro _; exact Nat.zero_le _
    | succ k ih =>
      intro hk
      have h1 := ih (by omega)
      have h2 := hgrow k (by omega)
      omega
  have hbig := hlen (g.rows * g.cols + 1) (le_refl _)
  have hsmall : ((fun s => compStep g s)^[g.rows * g.cols + 1] [p]).length ≤ g.rows * g.cols := by
    have hn := iter_nodup g p (g.rows * g.cols + 1)
    have hsub := iter_subset_allPos g p (g.rows * g.cols)
    have hsp := hn.subperm hsub
    have := hsp.length_le
    rw [length_allPos] at this
    exact this
  omega

theorem component_stable (g : Grid) (p : Nat × Nat) (hp : p ∈ g.allPos) :
    ∀ x, x ∈ compStep g (component g p) ↔ x ∈ component g p := by
  obtain ⟨m, hm, hstab⟩ := exists_stable_iter g p hp
  intro x
  rcases Nat.lt_or_ge m (g.rows * g.cols) with hlt | hge
  · have h1 : (fun s => compStep g s)^[g.rows * g.cols] [p]
        = (fun s => compStep g s)^[m + 1] [p] := by
      have := iter_stable_of_members g p m hstab (g.rows * g.cols - (m + 1))
      rw [show m + 1 + (g.rows * g.cols - (m + 1)) = g.rows * g.cols from by omega] at this
      exact this
    have h2 : (fun s => compStep g s)^[g.rows * g.cols + 1] [p]
        = (fun s => compStep g s)^[m + 1] [p] := by
      have := iter_stable_of_members g p m hstab (g.rows * g.cols - m)
      rw [show m + 1 + (g.rows * g.cols - m) = g.rows * g.cols + 1 from by omega] at this
      exact this
    unfold component
    rw [show compStep g ((fun s => compStep g s)^[g.rows * g.cols] [p])
        = (fun s => compStep g s)^[g.rows * g.cols + 1] [p] from
      (Function.iterate_succ_apply' _ _ _).symm]
    rw [h1, h2]
  · have hmeq : m = g.rows * g.cols := by omega
    rw [hmeq] at hstab
    unfold component
    rw [show compStep g ((fun s => compStep g s)^[g.rows * g.cols] [p])
        = (fun s => compStep g s)^[g.rows * g.cols + 1] [p] from
      (Function.iterate_succ_apply' _ _ _).symm]
    exact (hstab x).symm

theorem mem_iter_reach (g : Grid) (p : Nat × Nat) (m : Nat) :
    ∀ q ∈ (fun s => compStep g s)^[m] [p], reach g p q := by
  induction m with
  | zero =>
    intro q hq
    rw [Function.iterate_zero_apply, List.mem_singleton] at hq
    rw [hq]
    exact Relation.ReflTransGen.refl
  | succ k ih =>
    intro q hq
    rw [Function.iterate_succ_apply', mem_compStep] at hq
    rcases hq.2 with h1 | ⟨x, hx, h2, h3⟩
    · exact ih q h1
    · exact Relation.ReflTransGen.tail (ih x hx) ⟨hq.1, h2, h3⟩

theorem mem_component_reach (g : Grid) (p q : Nat × Nat) (hq : q ∈ component g p) :
    reach g p q :=
  mem_iter_reach g p (g.rows * g.cols) q hq

theorem reach_mem_component (g : Grid) (p q : Nat × Nat) (hp : p ∈ g.allPos)
    (h : reach g p q) : q ∈ component g p := by
  induction h with
  | refl => exact self_mem_iter g p hp (g.rows * g.cols)
  | tail h1 hstep ih =>
    rename_i m q2
    apply (component_stable g p hp q2).mp
    rw [mem_compStep]
    exact ⟨hstep.1, Or.inr ⟨m, ih, hstep.2.1, hstep.2.2⟩⟩

theorem component_subset_allPos (g : Grid) (p : Nat × Nat) (hp : p ∈ g.allPos) :
    ∀ q ∈ component g p, q ∈ g.allPos := by
  intro q hq
  have hn : 0 < g.rows * g.cols := by
    have := (mem_allPos g p).mp hp
    have h1 : 0 < g.rows := by omega
    have h2 : 0 < g.cols := by omega
    exact Nat.mul_pos h1 h2
  unfold component at hq
  rw [show g.rows * g.cols = (g.rows * g.cols - 1) + 1 from by omega] at hq
  exact iter_subset_allPos g p _ q hq

theorem reach_value (g : Grid) (p q : Nat × Nat) (h : reach g p q) : g.get p = g.get q := by
  induction h with
  | refl => rfl
  | tail _ hstep ih => exact ih.trans hstep.2.2

theorem reach_symm (g : Grid) (p q : Nat × Nat) (hp : p ∈ g.allPos) (h : reach g p q) :
    reach g q p := by
  induction h with
  | refl => exact Relation.ReflTransGen.refl
  | tail h1 hstep ih =>
    rename_i m q2
    have hm : m ∈ g.allPos := by
      rcases Relation.reflTransGen_iff_eq_or_transGen.mp h1 with heq | _
      · rw [heq]
        exact hp
      · exact component_subset_allPos g p hp m (reach_mem_component g p m hp h1)
    have hstep2 : compStepRel g q2 m := ⟨hm, adj_symm _ _ hstep.2.1, hstep.2.2.symm⟩
    exact Relation.ReflTransGen.trans (Relation.ReflTransGen.single hstep2) ih

theorem component_members_eq (g : Grid) (p q : Nat × Nat) (hp : p ∈ g.allPos)
    (hq : q ∈ component g p) : ∀ x, x ∈ component g q ↔ x ∈ component g p := by
  intro x
  have hqa : q ∈ g.allPos := component_subset_allPos g p hp q hq
  have hpq : reach g p q := mem_component_reach g p q hq
  have hqp : reach g q p := reach_symm g p q hp hpq
  constructor
  · intro hx
    exact reach_mem_component g p x hp (hpq.trans (mem_component_reach g q x hx))
  · intro hx
    exact reach_mem_component g q x hqa (hqp.trans (mem_component_reach g p x hx))

theorem component_nodup (g : Grid) (p : Nat × Nat) : (component g p).Nodup :=
  iter_nodup g p (g.rows * g.cols)

theorem length_eq_of_members_eq (l1 l2 : List (Nat × Nat)) (h1 : l1.Nodup) (h2 : l2.Nodup)
    (h : ∀ x, x ∈ l1 ↔ x ∈ l2) : l1.length = l2.length := by
  have hs1 := (h1.subperm (fun x hx => (h x).mp hx)).length_le
  have hs2 := (h2.subperm (fun x hx => (h x).mpr hx)).length_le
  omega

theorem value_eq_of_mem_component (g : Grid) (p q : Nat × Nat) (hq : q ∈ component g p) :
    g.get p = g.get q :=
  reach_value g p q (mem_component_reach g p q hq)

theorem labelCount_eq_of_mem_component (g : Grid) (p q : Nat × Nat) (hp : p ∈ g.allPos)
    (hq : q ∈ component g p) : labelCount g q = labelCount g p := by
  have hval := value_eq_of_mem_component g p q hq
  unfold labelCount
  by_cases hz : g.get p = 0
  · rw [if_pos hz, if_pos (hval ▸ hz)]
  · rw [if_neg hz, if_neg (fun hc => hz (hval.trans hc))]
    exact length_eq_of_members_eq _ _ (component_nodup g q) (component_nodup g p)
      (component_members_eq g p q hp hq)

theorem adj_same_value_mem_component (g : Grid) (p q : Nat × Nat) (hp : p ∈ g.allPos)
    (hq : q ∈ g.allPos) (hadj : Adj p q) (hval : g.get p = g.get q) :
    q ∈ component g p :=
  reach_mem_component g p q hp (Relation.ReflTransGen.single ⟨hq, hadj, hval⟩)

theorem allPos_eq_of_dims (w w2 : Grid) (hr : w2.rows = w.rows) (hc : w2.cols = w.cols) :
    w2.allPos = w.allPos := by
  unfold Grid.allPos
  rw [hr, hc]

theorem component_grow (w w2 : Grid) (hr : w2.rows = w.rows) (hc : w2.cols = w.cols)
    (p : Nat × Nat) (hp : p ∈ w.allPos)
    (hagree : ∀ m ∈ component w p, w2.get m = w.get m) :
    ∀ q ∈ component w p, q ∈ component w2 p := by
  have hap : w2.allPos = w.allPos := allPos_eq_of_dims w w2 hr hc
  have hreach : ∀ q, reach w p q → reach w2 p q := by
    intro q h
    induction h with
    | refl => exact Relation.ReflTransGen.refl
    | tail h1 hstep ih =>
      rename_i m q2
      have hmc : m ∈ component w p := reach_mem_component w p m hp h1
      have hqc : q2 ∈ component w p :=
        reach_mem_component w p q2 hp (Relation.ReflTransGen.tail h1 hstep)
      refine Relation.ReflTransGen.tail ih ⟨?_, hstep.2.1, ?_⟩
      · rw [hap]
        exact hstep.1
      · rw [hagree m hmc, hagree q2 hqc]
        exact hstep.2.2
  intro q hq
  apply reach_mem_component w2 p q (by rw [hap]; exact hp)
  exact hreach q (mem_component_reach w p q hq)

/-! Lemmas for the idempotence of the small-region merge (claim C5): the
masked-overwrite shape shared by _increase_levels and the _reset_levels
iterations. -/

theorem maskWrite_wf (w : Grid) (s c : Int) : (maskWrite w s c).Wf :=
  Grid.wf_ofFn _ _ _

theorem maskWrite_allPos (w : Grid) (s c : Int) : (maskWrite w s c).allPos = w.allPos := rfl

theorem maskWrite_get (w : Grid) (s c : Int) (p : Nat × Nat) (hp : p ∈ w.allPos) :
    (maskWrite w s c).get p = if (labelCount w p : Int) ≤ s then c else w.get p := by
  obtain ⟨a, b⟩ := p
  obtain ⟨h1, h2⟩ := (mem_allPos w (a, b)).mp hp
  unfold maskWrite
  exact Grid.get_ofFn _ _ _ a b h1 h2

theorem resetStep_allPos (s : Int) (w : Grid) (i : Int) :
    (resetStep s w i).allPos = w.allPos := rfl

theorem resetStep_get (s : Int) (w : Grid) (i : Int) (p : Nat × Nat) (hp : p ∈ w.allPos) :
    (resetStep s w i).get p = if (labelCount w p : Int) ≤ s then i - 1 else w.get p :=
  maskWrite_get w s (i - 1) p hp

theorem Grid.gmax_mem (g : Grid) (hne : g.data ≠ []) : g.gmax ∈ g.data := by
  rcases h : g.data with _ | ⟨y, ys⟩
  · exact absurd h hne
  · have hg : g.gmax = ys.foldl max y := by
      unfold gmax
      rw [h]
    rw [hg]
    rcases foldl_max_mem ys y with heq | hmem
    · rw [heq]
      exact List.mem_cons_self y ys
    · exact List.mem_cons_of_mem y hmem

theorem Grid.gmin_le_gmax (g : Grid) (hne : g.data ≠ []) : g.gmin ≤ g.gmax :=
  Grid.gmin_le_mem g g.gmax (Grid.gmax_mem g hne)

theorem mem_data_get (g : Grid) (hwf : g.Wf) (x : Int) (hx : x ∈ g.data) :
    ∃ p ∈ g.allPos, g.get p = x := by
  obtain ⟨k, hk, hget⟩ := List.getElem_of_mem hx
  have hkrc : k < g.rows * g.cols := by
    rw [← hwf]
    exact hk
  rcases Nat.eq_zero_or_pos g.cols with hc | hc
  · rw [hc, Nat.mul_zero] at hkrc
    omega
  have hdiv : k / g.cols < g.rows := (Nat.div_lt_iff_lt_mul hc).mpr hkrc
  have hmod : k % g.cols < g.cols := Nat.mod_lt _ hc
  refine ⟨(k / g.cols, k % g.cols), (mem_allPos g _).mpr ⟨hdiv, hmod⟩, ?_⟩
  unfold Grid.get
  rw [if_pos ⟨hdiv, hmod⟩]
  show g.data.getD (k / g.cols * g.cols + k % g.cols) 0 = x
  rw [Nat.div_add_mod' k g.cols, List.getD_eq_getElem _ _ hk]
  exact hget

theorem labelCount_maskWrite_ge (w : Grid) (s c : Int) (p : Nat × Nat) (hp : p ∈ w.allPos)
    (hbig : ¬ (labelCount w p : Int) ≤ s) :
    labelCount w p ≤ labelCount (maskWrite w s c) p := by
  have huntouched : ∀ q ∈ w.allPos, ¬ (labelCount w q : Int) ≤ s →
      (maskWrite w s c).get q = w.get q := by
    intro q hq hqb
    rw [maskWrite_get w s c q hq, if_neg hqb]
  by_cases hz : w.get p = 0
  · have hzeros : ∀ q ∈ w.allPos, w.get q = 0 → (maskWrite w s c).get q = w.get q := by
      intro q hq hq0
      have hEq : labelCount w q = labelCount w p := by
        unfold labelCount
        rw [if_pos hq0, if_pos hz]
      apply huntouched q hq
      rw [hEq]
      exact hbig
    have hz2 : (maskWrite w s c).get p = 0 := (hzeros p hp hz).trans hz
    unfold labelCount
    rw [if_pos hz, if_pos hz2, maskWrite_allPos w s c]
    apply List.countP_mono_left
    intro q hq hq0
    simp only [decide_eq_true_eq] at hq0 ⊢
    rw [hzeros q hq hq0]
    exact hq0
  · have hagree : ∀ m ∈ component w p, (maskWrite w s c).get m = w.get m := by
      intro m hm
      have hma : m ∈ w.allPos := component_subset_allPos w p hp m hm
      apply huntouched m hma
      rw [labelCount_eq_of_mem_component w p m hp hm]
      exact hbig
    have hgrow : ∀ q ∈ component w p, q ∈ component (maskWrite w s c) p :=
      component_grow w (maskWrite w s c) rfl rfl p hp hagree
    have hvp : (maskWrite w s c).get p = w.get p :=
      hagree p (self_mem_iter w p hp (w.rows * w.cols))
    have hz3 : ¬ (maskWrite w s c).get p = 0 := by
      rw [hvp]
      exact hz
    unfold labelCount
    rw [if_neg hz, if_neg hz3]
    exact ((component_nodup w p).subperm hgrow).length_le

theorem Kinv_maskWrite (w : Grid) (s i : Int) (hK : Kinv w s i) :
    Kinv (maskWrite w s (i - 1)) s (i - 1) := by
  intro p hp2 hsmall2
  rw [maskWrite_allPos w s (i - 1)] at hp2
  have htouched : (labelCount w p : Int) ≤ s := by
    by_contra hbig
    have hge := labelCount_maskWrite_ge w s (i - 1) p hp2 hbig
    omega
  constructor
  · rw [maskWrite_get w s (i - 1) p hp2, if_pos htouched]
  · intro q hq2 hadj
    rw [maskWrite_allPos w s (i - 1)] at hq2
    rw [maskWrite_get w s (i - 1) q hq2]
    by_cases hqs : (labelCount w q : Int) ≤ s
    · rw [if_pos hqs]
    · rw [if_neg hqs]
      obtain ⟨hpi, hnb⟩ := hK p hp2 htouched
      have hle : w.get q ≤ i := hnb q hq2 hadj
      rcases eq_or_lt_of_le hle with heq | hlt
      · exfalso
        have hval : w.get p = w.get q := by rw [hpi, heq]
        have hmem : q ∈ component w p :=
          adj_same_value_mem_component w p q hp2 hq2 hadj hval
        rw [labelCount_eq_of_mem_component w p q hp2 hmem] at hqs
        exact hqs htouched
      · omega

theorem data_ne_nil_of_pos (g : Grid) (hwf : g.Wf) (hpos : 0 < g.rows * g.cols) :
    g.data ≠ [] := by
  intro hc
  have hlen : g.data.length = g.rows * g.cols := hwf
  rw [hc] at hlen
  simp only [List.length_nil] at hlen
  omega

theorem gmax_maskWrite_gmax (w : Grid) (hwf : w.Wf) (hne : w.data ≠ []) (s : Int) :
    (maskWrite w s w.gmax).gmax = w.gmax := by
  have hpos : 0 < w.rows * w.cols := by
    have hlen := List.length_pos.mpr hne
    rw [hwf] at hlen
    exact hlen
  apply le_antisymm
  · have hb : ∀ x ∈ (maskWrite w s w.gmax).data, x ≤ w.gmax := by
      intro x hx
      obtain ⟨p, hp, hget⟩ := mem_data_get (maskWrite w s w.gmax) (maskWrite_wf w s w.gmax) x hx
      rw [maskWrite_allPos w s w.gmax] at hp
      rw [maskWrite_get w s w.gmax p hp] at hget
      by_cases hps : (labelCount w p : Int) ≤ s
      · rw [if_pos hps] at hget
        omega
      · rw [if_neg hps] at hget
        rw [← hget]
        obtain ⟨a, b⟩ := p
        obtain ⟨h1, h2⟩ := (mem_allPos w (a, b)).mp hp
        exact Grid.mem_le_gmax w _ (Grid.get_mem_data w hwf a b h1 h2)
    have hne2 : (maskWrite w s w.gmax).data ≠ [] :=
      data_ne_nil_of_pos _ (maskWrite_wf w s w.gmax) hpos
    exact hb _ (Grid.gmax_mem _ hne2)
  · obtain ⟨p, hp, hget⟩ := mem_data_get w hwf w.gmax (Grid.gmax_mem w hne)
    have hv : (maskWrite w s w.gmax).get p = w.gmax := by
      rw [maskWrite_get w s w.gmax p hp]
      by_cases hps : (labelCount w p : Int) ≤ s
      · rw [if_pos hps]
      · rw [if_neg hps]
        exact hget
    obtain ⟨a, b⟩ := p
    obtain ⟨h1, h2⟩ := (mem_allPos w (a, b)).mp hp
    have hmem := Grid.get_mem_data (maskWrite w s w.gmax) (maskWrite_wf w s w.gmax) a b h1 h2
    rw [hv] at hmem
    exact Grid.mem_le_gmax _ _ hmem

theorem Kinv_increase (w : Grid) (hwf : w.Wf) (hne : w.data ≠ []) (s : Int) :
    Kinv (maskWrite w s w.gmax) s (maskWrite w s w.gmax).gmax := by
  intro p hp2 hsmall2
  rw [maskWrite_allPos w s w.gmax] at hp2
  have htouched : (labelCount w p : Int) ≤ s := by
    by_contra hbig
    have hge := labelCount_maskWrite_ge w s w.gmax p hp2 hbig
    omega
  constructor
  · rw [maskWrite_get w s w.gmax p hp2, if_pos htouched, gmax_maskWrite_gmax w hwf hne s]
  · intro q hq2 hadj
    rw [maskWrite_allPos w s w.gmax] at hq2
    obtain ⟨a, b⟩ := q
    obtain ⟨h1, h2⟩ := (mem_allPos w (a, b)).mp hq2
    exact Grid.mem_le_gmax _ _
      (Grid.get_mem_data _ (maskWrite_wf w s w.gmax) a b h1 h2)

theorem rangeDown_nil (hi lo : Int) (h : hi ≤ lo) : rangeDown hi lo = [] := by
  unfold rangeDown
  rw [show (hi - lo).toNat = 0 from by omega, List.range_zero, List.map_nil]

theorem rangeDown_cons (hi lo : Int) (h : lo < hi) :
    rangeDown hi lo = hi :: rangeDown (hi - 1) lo := by
  unfold rangeDown
  have hn : (hi - lo).toNat = (hi - 1 - lo).toNat + 1 := by omega
  rw [hn, List.range_succ_eq_map, List.map_cons, List.map_map]
  congr 1
  · simp
  · apply List.map_congr_left
    intro k hk
    simp only [Function.comp_apply]
    push_cast
    ring

theorem fold_resetStep_rows (s : Int) (L : List Int) : ∀ w : Grid,
    (L.foldl (resetStep s) w).rows = w.rows := by
  induction L with
  | nil => intro w; rfl
  | cons i L ih =>
    intro w
    rw [List.foldl_cons]
    exact (ih (resetStep s w i)).trans rfl

theorem fold_resetStep_cols (s : Int) (L : List Int) : ∀ w : Grid,
    (L.foldl (resetStep s) w).cols = w.cols := by
  induction L with
  | nil => intro w; rfl
  | cons i L ih =>
    intro w
    rw [List.foldl_cons]
    exact (ih (resetStep s w i)).trans rfl

theorem fold_resetStep_wf (s : Int) (L : List Int) : ∀ w : Grid, w.Wf →
    (L.foldl (resetStep s) w).Wf := by
  induction L with
  | nil => intro w hwf; exact hwf
  | cons i L ih =>
    intro w hwf
    rw [List.foldl_cons]
    exact ih (resetStep s w i) (Grid.wf_ofFn _ _ _)

theorem fold_resetStep_Kinv (s : Int) (n : Nat) : ∀ (w : Grid) (hi lo : Int),
    (hi - lo).toNat = n → Kinv w s hi →
    Kinv ((rangeDown hi lo).foldl (resetStep s) w) s (min hi lo) := by
  induction n with
  | zero =>
    intro w hi lo hn hK
    have hle : hi ≤ lo := by omega
    rw [rangeDown_nil hi lo hle, List.foldl_nil, min_eq_left hle]
    exact hK
  | succ k ih =>
    intro w hi lo hn hK
    have hlt : lo < hi := by omega
    rw [rangeDown_cons hi lo hlt, List.foldl_cons]
    have hstep : Kinv (resetStep s w hi) s (hi - 1) := Kinv_maskWrite w s hi hK
    have hres := ih (resetStep s w hi) (hi - 1) lo (by omega) hstep
    rwa [show min (hi - 1) lo = min hi lo from by omega] at hres

theorem fold_resetStep_lower (s : Int) (n : Nat) : ∀ (w : Grid) (hi lo : Int),
    (hi - lo).toNat = n →
    (∀ p ∈ w.allPos, lo ≤ w.get p) →
    ∀ p ∈ ((rangeDown hi lo).foldl (resetStep s) w).allPos,
      lo ≤ ((rangeDown hi lo).foldl (resetStep s) w).get p := by
  induction n with
  | zero =>
    intro w hi lo hn hlow
    rw [rangeDown_nil hi lo (by omega), List.foldl_nil]
    exact hlow
  | succ k ih =>
    intro w hi lo hn hlow
    rw [rangeDown_cons hi lo (by omega), List.foldl_cons]
    apply ih (resetStep s w hi) (hi - 1) lo (by omega)
    intro p hp
    rw [resetStep_allPos s w hi] at hp
    rw [resetStep_get s w hi p hp]
    by_cases hps : (labelCount w p : Int) ≤ s
    · rw [if_pos hps]
      omega
    · rw [if_neg hps]
      exact hlow p hp

theorem grid_connected_aux (g : Grid) (n : Nat) : ∀ p q : Nat × Nat,
    p ∈ g.allPos → q ∈ g.allPos →
    (max p.1 q.1 - min p.1 q.1) + (max p.2 q.2 - min p.2 q.2) ≤ n →
    Relation.ReflTransGen (gridStepRel g) p q := by
  induction n with
  | zero =>
    intro p q hp hq hd
    obtain ⟨a, b⟩ := p
    obtain ⟨x, y⟩ := q
    have hd0 : (max a x - min a x) + (max b y - min b y) ≤ 0 := hd
    have hxy : a = x ∧ b = y := by omega
    rw [hxy.1, hxy.2]
  | succ k ih =>
    intro p q hp hq hd
    by_cases hpq : p = q
    · rw [hpq]
    · obtain ⟨a, b⟩ := p
      obtain ⟨x, y⟩ := q
      have hd0 : (max a x - min a x) + (max b y - min b y) ≤ k + 1 := hd
      have hne : a ≠ x ∨ b ≠ y := by
        by_contra hc
        push_neg at hc
        exact hpq (by rw [hc.1, hc.2])
      obtain ⟨hpa, hpb⟩ := (mem_allPos g (a, b)).mp hp
      obtain ⟨hqa, hqb⟩ := (mem_allPos g (x, y)).mp hq
      set a2 := a + min 1 (x - a) - min 1 (a - x) with ha2
      set b2 := b + min 1 (y - b) - min 1 (b - y) with hb2
      have ha2lt : a2 < g.rows := by omega
      have hb2lt : b2 < g.cols := by omega
      have hmem2 : (a2, b2) ∈ g.allPos := (mem_allPos g (a2, b2)).mpr ⟨ha2lt, hb2lt⟩
      have hstep : gridStepRel g (a, b) (a2, b2) := by
        refine ⟨hmem2, ?_, ?_, ?_⟩
        · intro hc
          have h1 : a = a2 := congrArg Prod.fst hc
          have h2 : b = b2 := congrArg Prod.snd hc
          omega
        · show max a a2 - min a a2 ≤ 1
          omega
        · show max b b2 - min b b2 ≤ 1
          omega
      have hd2 : (max a2 x - min a2 x) + (max b2 y - min b2 y) ≤ k := by omega
      exact Relation.ReflTransGen.head hstep (ih (a2, b2) (x, y) hmem2 hq hd2)

theorem grid_connected (g : Grid) (p q : Nat × Nat) (hp : p ∈ g.allPos) (hq : q ∈ g.allPos) :
    Relation.ReflTransGen (gridStepRel g) p q :=
  grid_connected_aux g ((max p.1 q.1 - min p.1 q.1) + (max p.2 q.2 - min p.2 q.2))
    p q hp hq (le_refl _)

theorem Kinv_small_uniform (w : Grid) (s i : Int) (hK : Kinv w s i)
    (hlow : ∀ q ∈ w.allPos, i ≤ w.get q)
    (p : Nat × Nat) (hp : p ∈ w.allPos) (hsmall : (labelCount w p : Int) ≤ s) :
    ∀ q ∈ w.allPos, w.get q = i := by
  have hspread : ∀ q, Relation.ReflTransGen (gridStepRel w) p q →
      q ∈ w.allPos ∧ w.get q = i ∧ (labelCount w q : Int) ≤ s := by
    intro q h
    induction h with
    | refl => exact ⟨hp, (hK p hp hsmall).1, hsmall⟩
    | tail h1 hstep ih =>
      rename_i m q2
      obtain ⟨hma, hmi, hms⟩ := ih
      obtain ⟨hq2a, hadj⟩ := hstep
      have hle : w.get q2 ≤ i := (hK m hma hms).2 q2 hq2a hadj
      have hge : i ≤ w.get q2 := hlow q2 hq2a
      have hq2i : w.get q2 = i := le_antisymm hle hge
      have hval : w.get m = w.get q2 := by rw [hmi, hq2i]
      have hmem : q2 ∈ component w m := adj_same_value_mem_component w m q2 hma hq2a hadj hval
      have hlc : labelCount w q2 = labelCount w m := labelCount_eq_of_mem_component w m q2 hma hmem
      refine ⟨hq2a, hq2i, ?_⟩
      rw [hlc]
      exact hms
  intro q hq
  exact (hspread q (grid_connected w p q hp hq)).2.1

theorem increase_levels_id_of_no_small (w : Grid) (s : Int) (hwf : w.Wf)
    (h : ∀ p ∈ w.allPos, ¬ (labelCount w p : Int) ≤ s) : increase_levels w s = w := by
  unfold increase_levels
  have hc : ∀ i j, i < w.rows → j < w.cols →
      (if (labelCount w (i, j) : Int) ≤ s then w.gmax else w.get (i, j)) = w.get (i, j) := by
    intro i j hi hj
    rw [if_neg (h (i, j) ((mem_allPos w (i, j)).mpr ⟨hi, hj⟩))]
  rw [Grid.ofFn_congr _ _ _ _ hc, Grid.ofFn_self w hwf]

theorem resetStep_id_of_no_small (s : Int) (w : Grid) (i : Int) (hwf : w.Wf)
    (h : ∀ p ∈ w.allPos, ¬ (labelCount w p : Int) ≤ s) : resetStep s w i = w := by
  unfold resetStep
  have hc : ∀ a b, a < w.rows → b < w.cols →
      (if (labelCount w (a, b) : Int) ≤ s then i - 1 else w.get (a, b)) = w.get (a, b) := by
    intro a b ha hb
    rw [if_neg (h (a, b) ((mem_allPos w (a, b)).mpr ⟨ha, hb⟩))]
  rw [Grid.ofFn_congr _ _ _ _ hc, Grid.ofFn_self w hwf]

theorem fold_resetStep_id (s : Int) (L : List Int) (w : Grid) (hwf : w.Wf)
    (h : ∀ p ∈ w.allPos, ¬ (labelCount w p : Int) ≤ s) :
    L.foldl (resetStep s) w = w := by
  induction L with
  | nil => rfl
  | cons i L ih =>
    rw [List.foldl_cons, resetStep_id_of_no_small s w i hwf h]
    exact ih

theorem gmax_eq_of_uniform (w : Grid) (hwf : w.Wf) (hne : w.data ≠ []) (v : Int)
    (hu : ∀ p ∈ w.allPos, w.get p = v) : w.gmax = v := by
  obtain ⟨p, hp, hg⟩ := mem_data_get w hwf w.gmax (Grid.gmax_mem w hne)
  rw [← hg]
  exact hu p hp

theorem gmin_eq_of_uniform (w : Grid) (hwf : w.Wf) (hne : w.data ≠ []) (v : Int)
    (hu : ∀ p ∈ w.allPos, w.get p = v) : w.gmin = v := by
  obtain ⟨p, hp, hg⟩ := mem_data_get w hwf w.gmin (Grid.gmin_mem w hne)
  rw [← hg]
  exact hu p hp

theorem increase_levels_id_of_uniform (w : Grid) (hwf : w.Wf) (hne : w.data ≠ []) (s v : Int)
    (hu : ∀ p ∈ w.allPos, w.get p = v) : increase_levels w s = w := by
  have hgm := gmax_eq_of_uniform w hwf hne v hu
  unfold increase_levels
  have hc : ∀ i j, i < w.rows → j < w.cols →
      (if (labelCount w (i, j) : Int) ≤ s then w.gmax else w.get (i, j)) = w.get (i, j) := by
    intro i j hi hj
    by_cases hps : (labelCount w (i, j) : Int) ≤ s
    · rw [if_pos hps, hgm, hu (i, j) ((mem_allPos w (i, j)).mpr ⟨hi, hj⟩)]
    · rw [if_neg hps]
  rw [Grid.ofFn_congr _ _ _ _ hc, Grid.ofFn_self w hwf]

theorem reset_levels_id_of_uniform (w : Grid) (hwf : w.Wf) (hne : w.data ≠ []) (s v : Int)
    (hu : ∀ p ∈ w.allPos, w.get p = v) : reset_levels w s = w := by
  unfold reset_levels
  rw [gmax_eq_of_uniform w hwf hne v hu, gmin_eq_of_uniform w hwf hne v hu,
    rangeDown_nil v v (le_refl v), List.foldl_nil]

theorem shift_neg_shift_cancel (g : Grid) (hwf : g.Wf) : (g.shift (-1)).shift 1 = g := by
  unfold Grid.shift
  have h : ∀ i j, i < g.rows → j < g.cols →
      (Grid.ofFn g.rows g.cols (fun r c => g.get (r, c) + (-1))).get (i, j) + 1
        = g.get (i, j) := by
    intro i j hi hj
    rw [Grid.get_ofFn _ _ _ _ _ hi hj]
    ring
  calc Grid.ofFn (Grid.ofFn g.rows g.cols fun r c => g.get (r, c) + (-1)).rows
        (Grid.ofFn g.rows g.cols fun r c => g.get (r, c) + (-1)).cols
        (fun r c => (Grid.ofFn g.rows g.cols fun r c => g.get (r, c) + (-1)).get (r, c) + 1)
      = Grid.ofFn g.rows g.cols (fun i j => g.get (i, j)) := Grid.ofFn_congr _ _ _ _ h
    _ = g := Grid.ofFn_self g hwf

theorem reset_levels_wf (w : Grid) (s : Int) (hwf : w.Wf) : (reset_levels w s).Wf :=
  fold_resetStep_wf s (rangeDown w.gmax w.gmin) w hwf

theorem reset_levels_rows (w : Grid) (s : Int) : (reset_levels w s).rows = w.rows :=
  fold_resetStep_rows s (rangeDown w.gmax w.gmin) w

theorem reset_levels_cols (w : Grid) (s : Int) : (reset_levels w s).cols = w.cols :=
  fold_resetStep_cols s (rangeDown w.gmax w.gmin) w

theorem second_pass_id (w1 : Grid) (hwf1 : w1.Wf) (s : Int) :
    reset_levels (increase_levels (reset_levels (increase_levels w1 s) s) s) s
      = reset_levels (increase_levels w1 s) s := by
  set A := increase_levels w1 s with hA
  set R := reset_levels A s with hR
  have hAwf : A.Wf := Grid.wf_ofFn _ _ _
  have hRwf : R.Wf := by
    rw [hR]
    exact reset_levels_wf A s hAwf
  by_cases hsm : ∃ p ∈ R.allPos, (labelCount R p : Int) ≤ s
  · obtain ⟨p0, hp0, hps0⟩ := hsm
    have hRrows : R.rows = A.rows := by
      rw [hR]
      exact reset_levels_rows A s
    have hRcols : R.cols = A.cols := by
      rw [hR]
      exact reset_levels_cols A s
    have hdims := (mem_allPos R p0).mp hp0
    rw [hRrows, hRcols] at hdims
    have hposr : 0 < A.rows := by omega
    have hposc : 0 < A.cols := by omega
    have hAne : A.data ≠ [] := data_ne_nil_of_pos A hAwf (Nat.mul_pos hposr hposc)
    have hw1r : A.rows = w1.rows := rfl
    have hw1c : A.cols = w1.cols := rfl
    have hw1ne : w1.data ≠ [] := by
      apply data_ne_nil_of_pos w1 hwf1
      rw [← hw1r, ← hw1c]
      exact Nat.mul_pos hposr hposc
    have hKbase : Kinv A s A.gmax := Kinv_increase w1 hwf1 hw1ne s
    have hgle : A.gmin ≤ A.gmax := Grid.gmin_le_gmax A hAne
    have hKR : Kinv R s A.gmin := by
      have h2 := fold_resetStep_Kinv s (A.gmax - A.gmin).toNat A A.gmax A.gmin rfl hKbase
      rw [min_eq_right hgle] at h2
      rw [hR]
      exact h2
    have hlowA : ∀ q ∈ A.allPos, A.gmin ≤ A.get q := by
      intro q hq
      obtain ⟨a, b⟩ := q
      obtain ⟨h1, h2⟩ := (mem_allPos A (a, b)).mp hq
      exact Grid.gmin_le_mem A _ (Grid.get_mem_data A hAwf a b h1 h2)
    have hlowR : ∀ q ∈ R.allPos, A.gmin ≤ R.get q := by
      have h3 := fold_resetStep_lower s (A.gmax - A.gmin).toNat A A.gmax A.gmin rfl hlowA
      rw [hR]
      exact h3
    have huni : ∀ q ∈ R.allPos, R.get q = A.gmin :=
      Kinv_small_uniform R s A.gmin hKR hlowR p0 hp0 hps0
    have hRne : R.data ≠ [] := by
      apply data_ne_nil_of_pos R hRwf
      rw [hRrows, hRcols]
      exact Nat.mul_pos hposr hposc
    rw [increase_levels_id_of_uniform R hRwf hRne s A.gmin huni]
    exact reset_levels_id_of_uniform R hRwf hRne s A.gmin huni
  · have hns : ∀ p ∈ R.allPos, ¬ (labelCount R p : Int) ≤ s := by
      intro p hp hle
      exact hsm ⟨p, hp, hle⟩
    rw [increase_levels_id_of_no_small R s hRwf hns]
    exact fold_resetStep_id s (rangeDown R.gmax R.gmin) R hRwf hns

/-- C5: the small-region merge is idempotent. For every level map L (as an
integer grid of any shape, including empty and ill-formed data) and every
size threshold s, _change_small_regions(_change_small_regions(L, s), s)
equals _change_small_regions(L, s). -/
theorem merge_small_idempotent (g : Grid) (s : Int) :
    change_small_regions (change_small_regions g s) s = change_small_regions g s := by
  unfold change_small_regions
  simp only []
  rw [shift_neg_shift_cancel (reset_levels (increase_levels (g.shift 1) s) s)
      (reset_levels_wf _ s (Grid.wf_ofFn _ _ _)),
    second_pass_id (g.shift 1) (Grid.wf_ofFn _ _ _) s]
